import Mathlib

/-!
# pkgparse: shell array tokenizer and word substitution (`utility.c`)

A shallow embedding of `src/utility.c`.

Conventions of the embedding

* A C string is a `List Char`: the bytes stored in the buffer.  The C string
  it denotes is the part before the first NUL (`cstr`); reading at the end of
  the list reads the terminating NUL.
* A pointer walking over a buffer is the list of bytes that remain to be read;
  the byte at `str_ptr - 1` is carried along as `prev`.
* A run that leaves defined behaviour (a store outside an allocated block, a
  read of a slot that was never written, a NULL dereference) yields
  `Except.error` with the kind of fault; a `char *` that may be NULL is an
  `Option`.
* `malloc` returns blocks whose content is indeterminate.  Slots of a pointer
  array that were never written are `Slot.uninit`; the first byte of a fresh
  `char` block is the parameter `fresh`.
-/

namespace Pkgparse

/-- Bytes of a C buffer. -/
abbrev Str := List Char

/-- Ways in which a run leaves defined behaviour. -/
inductive Fault where
  /-- A store beyond the end of a block obtained from `malloc`. -/
  | heapOverflow
  /-- A pointer slot was read that was never written. -/
  | uninitRead
  /-- A read beyond the end of an allocated pointer array. -/
  | outOfBounds
  /-- A NULL pointer was handed to `strlen`. -/
  | nullDeref
  /-- The iteration budget of the embedding ran out (never happens, see
  `_substitute_words_budget`). -/
  | fuel
  deriving DecidableEq

/-- One element of the `char **` block built by `sh_split_array`. -/
inductive Slot where
  /-- Left as `malloc` returned it. -/
  | uninit
  /-- The NULL pointer. -/
  | null
  /-- Pointer to a heap copy of the given string. -/
  | str (s : Str)
  deriving DecidableEq

/-- The slot in which `sh_parse_array` stores a pointer returned by
`sh_parse_word`. -/
def ptrSlot (p : Option Str) : Slot :=
  match p with
  | some s => Slot.str s
  | none => Slot.null

/-- The C string held in a buffer: the bytes before the first NUL. -/
def cstr (s : Str) : Str := s.takeWhile (fun c => c != '\x00')

/-- Library `strlen`. -/
def strlen (s : Str) : Nat := (cstr s).length

/-- Library `isspace` in the C locale. -/
def isspace (c : Char) : Bool :=
  c == ' ' || c == '\t' || c == '\n' || c == '\x0b' || c == '\x0c' || c == '\r'

/-- Library `isalnum` in the C locale. -/
def isalnum (c : Char) : Bool :=
  ('0' ≤ c && c ≤ '9') || ('a' ≤ c && c ≤ 'z') || ('A' ≤ c && c ≤ 'Z')

/-- The `case '\'': case '"':` labels. -/
def isQuote (c : Char) : Bool := c == '\'' || c == '"'

/-- The `case ' ': case '\t': case '\n':` labels. -/
def isSep (c : Char) : Bool := c == ' ' || c == '\t' || c == '\n'

/-- The `while(!end_of_array)` loop of `_array_size`.  `prev` is `*(str_ptr - 1)`,
the list is what `str_ptr` points at. -/
def sizeLoop (prev : Char) (in_quote : Bool) (quote_char : Char) (count : Nat) :
    Str → Nat
  | [] => count
  | c :: rest =>
    if isQuote c then
      if prev != '\\' then
        sizeLoop c (!(in_quote && c == quote_char)) c count rest
      else
        sizeLoop c in_quote quote_char count rest
    else if isSep c then
      if !in_quote && prev != '\\' then
        sizeLoop c in_quote quote_char (count + 1) rest
      else
        sizeLoop c in_quote quote_char count rest
    else if c == ')' then
      if !in_quote && prev != '\\' then
        count + 1
      else
        sizeLoop c in_quote quote_char count rest
    else if c == '\x00' then
      count
    else
      sizeLoop c in_quote quote_char count rest

/-- Function `_array_size`.  `before` is the byte stored in front of the
buffer, which the loop reads as `*(str_ptr - 1)` when the string has no leading
parenthesis.  `quote_char` is not initialised in the source; it is read only
when `in_quote` is set, after it has been assigned. -/
def _array_size (before : Char) (array : Str) : Nat :=
  match array with
  | [] => 0
  | c :: rest =>
    if c == '(' then sizeLoop c false '\x00' 0 rest
    else if c == ')' || c == '\x00' then 0
    else sizeLoop before false '\x00' 0 (c :: rest)

/-- The store `array[elem] = strdup(start_ptr)` into a block of
`array.length` slots. -/
def store (array : List Slot) (elem : Nat) (s : Str) : Except Fault (List Slot) :=
  if elem < array.length then .ok (array.set elem (.str s)) else .error .heapOverflow

/-- The `while(!end_of_array)` loop of `sh_split_array`.  `cur` holds the bytes
from `start_ptr` up to `str_ptr`, which is the C string at `start_ptr` once
`*str_ptr = '\0'` has been executed; `prev` is `*(str_ptr - 1)` in the mutated
copy. -/
def splitLoop (prev : Char) (in_quote : Bool) (quote_char : Char) (cur : Str)
    (elem : Nat) (array : List Slot) : Str → Except Fault (List Slot)
  | [] => .ok array
  | c :: rest =>
    if isQuote c then
      if prev != '\\' then
        splitLoop c (!(in_quote && c == quote_char)) c (cur ++ [c]) elem array rest
      else
        splitLoop c in_quote quote_char (cur ++ [c]) elem array rest
    else if isSep c then
      if !in_quote && prev != '\\' then
        if cur.length != 1 && !isspace (cur.headD '\x00') then
          match store array elem cur with
          | .ok array1 => splitLoop '\x00' in_quote quote_char [] (elem + 1) array1 rest
          | .error e => .error e
        else
          splitLoop '\x00' in_quote quote_char [] elem array rest
      else
        splitLoop c in_quote quote_char (cur ++ [c]) elem array rest
    else if c == ')' then
      if !in_quote && prev != '\\' then
        store array elem cur
      else
        splitLoop c in_quote quote_char (cur ++ [c]) elem array rest
    else if c == '\x00' then
      .ok array
    else
      splitLoop c in_quote quote_char (cur ++ [c]) elem array rest

/-- Function `sh_split_array`: the block of `count_elem + 1` pointers it
returns.  The scan starts at `str_cpy + 1` whatever the first byte is. -/
def sh_split_array (before : Char) (string : Str) : Except Fault (List Slot) :=
  let count_elem := _array_size before string
  let array := List.replicate count_elem Slot.uninit ++ [Slot.null]
  if count_elem == 0 then .ok array
  else splitLoop (string.headD '\x00') false '\x00' [] 0 array string.tail

/-- Function `sh_unquote`.  In the quoted branch `len` is the length of the
string after its first byte; `strncpy(return_string, str_ptr, len - 1)` copies
the first `len - 1` bytes and the terminator is stored at `len - 1`.  When
`len` is 0 the block has size 0 and `len - 1` wraps to `SIZE_MAX`, so the copy
runs out of the block. -/
def sh_unquote (string : Option Str) : Except Fault (Option Str) :=
  match string with
  | none => .ok none
  | some s =>
    if isQuote (s.headD '\x00') then
      let str_ptr := s.tail
      let len := strlen str_ptr
      if len == 0 then .error .heapOverflow
      else .ok (some ((cstr str_ptr).take (len - 1)))
    else
      .ok (some (cstr s))

/-- The `for` loop of `_find_next_substitution`.  `i` is the offset of
`str_ptr` in the string handed to the function, `start` the offset last stored
in `*start`.  The result is the pair of offsets `(*start, *end)` when the
function returns 1 and `none` when it returns 0. -/
def findLoop (escaped in_literal_quote in_brace variable_ : Bool) (start i : Nat) :
    Str → Option (Nat × Nat)
  | [] => none
  | c :: rest =>
    if c == '\x00' then none
    else if c == '\'' then
      findLoop false (!escaped && !in_literal_quote) in_brace variable_ start (i + 1) rest
    else if c == '\\' then
      findLoop (!escaped) in_literal_quote in_brace variable_ start (i + 1) rest
    else if c == '$' then
      if !escaped && !in_literal_quote then
        findLoop false in_literal_quote in_brace true i (i + 1) rest
      else
        findLoop false in_literal_quote in_brace variable_ start (i + 1) rest
    else if c == '{' then
      findLoop escaped in_literal_quote (variable_ && !escaped) variable_ start (i + 1) rest
    else if c == '}' then
      if in_brace then some (start, i)
      else findLoop escaped in_literal_quote in_brace variable_ start (i + 1) rest
    else
      let next := rest.headD '\x00'
      let end_of_word := (!isalnum next && next != '_') || next == '\x00'
      if variable_ && !in_brace && end_of_word then some (start, i)
      else findLoop false in_literal_quote in_brace variable_ start (i + 1) rest

/-- Function `_find_next_substitution`. -/
def _find_next_substitution (string : Str) : Option (Nat × Nat) :=
  findLoop false false false false 0 0 string

/-- Function `_strcpy_partial(string, start, end)` for the callers in this file,
which pass `string = start`: the first `end - start + 1` bytes of the C string
at offset `start` of `buf`.  Both call sites have `start ≤ end + 1`. -/
def _strcpy_partial (buf : Str) (start end_ : Nat) : Str :=
  (cstr (buf.drop start)).take (end_ + 1 - start)

/-- The second `for` loop of `_array_cat`: append every element, and a space
after each element that has a successor. -/
def catLoop (result : Str) : List Str → Str
  | [] => result
  | [a] => result ++ cstr a
  | a :: b :: rest => catLoop (result ++ cstr a ++ [' ']) (b :: rest)

/-- Function `_array_cat` on a NULL-terminated array with the given elements.
The block of `size + 1` bytes comes from `malloc` and only `result[size]` is
set before the first `strncat`, which appends after the first NUL it finds in
the block.  `fresh` is the byte `malloc` left at `result[0]`.  When it is NUL
(or `size` is 0, where `result[0]` is the byte that was set) the elements land
at offset 0.  Otherwise they land at a positive offset and, being `size` bytes
long together, the last store falls behind the block. -/
def _array_cat (fresh : Char) (array : List Str) : Except Fault (Option Str) :=
  match array with
  | [] => .ok none
  | a :: rest =>
    let size := ((a :: rest).map strlen).sum + ((a :: rest).length - 1)
    if size == 0 || fresh == '\x00' then .ok (some (catLoop [] (a :: rest)))
    else .error .heapOverflow

/-- What the name table holds for a name: `symbol_type`, `symbol_string` and
`symbol_array` of a `symbol_t`. -/
inductive Symbol where
  /-- A string symbol. -/
  | string (text : Str)
  /-- A symbol of type `kSymbolTypeArray`. -/
  | array (values : List Str)
  deriving DecidableEq

/-- The `while` loop of `_substitute_words`.  `result` is the string built so
far, the last argument what `str_ptr` points at.  `table_lookupr` is the lookup
function of the table module, which is not part of this file; it is a
parameter.  Every round moves `str_ptr` forward, `n` bounds the number of
rounds. -/
def substLoop {T : Type} (table_lookupr : Option T → Str → Option Symbol)
    (fresh : Char) (table : Option T) : Nat → Str → Str → Except Fault Str
  | 0, _, _ => .error .fuel
  | n + 1, result, str_ptr =>
    match _find_next_substitution str_ptr with
    | none =>
      if strlen str_ptr > 0 then .ok (result ++ cstr str_ptr) else .ok result
    | some (start, end_) =>
      let word :=
        if str_ptr.getD (start + 1) '\x00' == '{' && str_ptr.getD end_ '\x00' == '}' then
          _strcpy_partial str_ptr (start + 2) (end_ - 1)
        else
          _strcpy_partial str_ptr (start + 1) end_
      match table_lookupr table word with
      | none => substLoop table_lookupr fresh table n result (str_ptr.drop (end_ + 1))
      | some (.string value) =>
        substLoop table_lookupr fresh table n
          (result ++ str_ptr.take start ++ cstr value) (str_ptr.drop (end_ + 1))
      | some (.array values) =>
        match _array_cat fresh values with
        | .error e => .error e
        | .ok none => .error .nullDeref
        | .ok (some value) =>
          substLoop table_lookupr fresh table n
            (result ++ str_ptr.take start ++ cstr value) (str_ptr.drop (end_ + 1))

/-- Function `_substitute_words`.  The loop runs at most once per byte of
`string`, so the budget of `string.length + 1` rounds is never used up
(`_substitute_words_budget`). -/
def _substitute_words {T : Type} (table_lookupr : Option T → Str → Option Symbol)
    (fresh : Char) (table : Option T) (string : Str) : Except Fault Str :=
  match _find_next_substitution string with
  | none => .ok (cstr string)
  | some _ => substLoop table_lookupr fresh table (string.length + 1) [] string

/-- Function `sh_parse_word`. -/
def sh_parse_word {T : Type} (table_lookupr : Option T → Str → Option Symbol)
    (fresh : Char) (table : Option T) (string : Str) : Except Fault (Option Str) :=
  match _substitute_words table_lookupr fresh table string with
  | .error e => .error e
  | .ok substituted => sh_unquote (some substituted)

/-- The `for` loop of `sh_parse_array` over the slots from `array_ptr` on. -/
def parseLoop {T : Type} (table_lookupr : Option T → Str → Option Symbol)
    (fresh : Char) (table : Option T) : List Slot → Except Fault (List Slot)
  | [] => .error .outOfBounds
  | .null :: rest => .ok (.null :: rest)
  | .uninit :: _ => .error .uninitRead
  | .str s :: rest =>
    match sh_parse_word table_lookupr fresh table s with
    | .error e => .error e
    | .ok parsed =>
      match parseLoop table_lookupr fresh table rest with
      | .error e => .error e
      | .ok rest1 =>
        .ok (ptrSlot parsed :: rest1)

/-- Function `sh_parse_array`. -/
def sh_parse_array {T : Type} (table_lookupr : Option T → Str → Option Symbol)
    (fresh before : Char) (table : Option T) (string : Str) :
    Except Fault (List Slot) :=
  match sh_split_array before string with
  | .error e => .error e
  | .ok result =>
    if table.isSome then parseLoop table_lookupr fresh table result
    else .ok result

/-- Characters of a bare variable name, the ones the lookahead of
`_find_next_substitution` lets a reference run on with: `[A-Za-z0-9_]`. -/
def isIdent (c : Char) : Bool := isalnum c || c == '_'

deriving instance DecidableEq for Except

/-- A well-formed result: every slot before the terminator written, in order. -/
def elements (ws : List Str) : List Slot := ws.map Slot.str ++ [Slot.null]

/-- Reading of "every `$` lies inside a literal-quoted region" in which a
region is opened by a `'` that is not escaped and closed by the next `'`,
escaped or not.  A backslash escapes the byte that follows it; a brace right
after an escaping backslash is not accepted.  `escaped` and `lit` tell whether
the next byte is escaped and whether a region is open. -/
def sigilsInLiteral (escaped lit : Bool) : Str → Bool
  | [] => true
  | c :: rest =>
    if c == '\'' then sigilsInLiteral false (!lit && !escaped) rest
    else if c == '\\' then sigilsInLiteral (!escaped) lit rest
    else if c == '$' then lit && sigilsInLiteral false lit rest
    else if c == '{' || c == '}' then !escaped && sigilsInLiteral false lit rest
    else sigilsInLiteral false lit rest

/-- Reading of "every `$` lies inside a literal-quoted region" in which a `'`
preceded by an unescaped backslash does not toggle the region: a region is
opened by an unescaped `'` and closed by the next unescaped `'`. -/
def sigilsInLiteralUnescaped (escaped lit : Bool) : Str → Bool
  | [] => true
  | c :: rest =>
    if c == '\'' then sigilsInLiteralUnescaped false (if escaped then lit else !lit) rest
    else if c == '\\' then sigilsInLiteralUnescaped (!escaped) lit rest
    else if c == '$' then lit && sigilsInLiteralUnescaped false lit rest
    else sigilsInLiteralUnescaped false lit rest

/-- The words of an array literal after the first, each with the separator
byte that precedes it, written out as text. -/
def joinSep : List (Char × Str) → Str
  | [] => []
  | (sep, w) :: rest => sep :: (w ++ joinSep rest)

/-- A table given as an association list, with the lookup of a NULL table
answering that nothing is bound; used for concrete evaluations only. -/
def assocLookup (table : Option (List (Str × Symbol))) (word : Str) : Option Symbol :=
  match table with
  | none => none
  | some t => t.lookup word

/-! ## Auxiliary lemmas -/

/-! ### C strings and `sh_unquote` -/

theorem cstr_of_no_nul (s : Str) (h : '\x00' ∉ s) : cstr s = s := by
  induction s with
  | nil => rfl
  | cons c r ih =>
    have hc : c ≠ '\x00' := fun e => h (e ▸ List.mem_cons_self _ _)
    have hr : '\x00' ∉ r := fun m => h (List.mem_cons_of_mem _ m)
    have ih1 := ih hr
    unfold cstr at ih1 ⊢
    simp [List.takeWhile_cons, hc, ih1]

theorem cstr_append_of_no_nul (s r : Str) (h : '\x00' ∉ s) : cstr (s ++ r) = s ++ cstr r := by
  induction s with
  | nil => rfl
  | cons c s ih =>
    have hc : c ≠ '\x00' := fun e => h (e ▸ List.mem_cons_self _ _)
    have hr : '\x00' ∉ s := fun m => h (List.mem_cons_of_mem _ m)
    have ih1 := ih hr
    unfold cstr at ih1 ⊢
    simp [List.takeWhile_cons, hc, ih1]

theorem sh_unquote_plain (s : Str) (hnul : '\x00' ∉ s)
    (h : s.head? ≠ some '\'' ∧ s.head? ≠ some '"') :
    sh_unquote (some s) = .ok (some s) := by
  have hq : isQuote (s.headD '\x00') = false := by
    cases s with
    | nil => decide
    | cons c r =>
      simp only [List.head?_cons, ne_eq, Option.some.injEq] at h
      simp [isQuote, h.1, h.2]
  rw [sh_unquote]
  simp only [hq]
  simp [cstr_of_no_nul s hnul]

theorem sh_unquote_quoted (s : Str) (hnul : '\x00' ∉ s) (hlen : 2 ≤ s.length)
    (h : s.head? = some '\'' ∨ s.head? = some '"') :
    sh_unquote (some s) = .ok (some s.tail.dropLast) := by
  cases s with
  | nil => simp at hlen
  | cons c r =>
    have hr : '\x00' ∉ r := fun m => hnul (List.mem_cons_of_mem _ m)
    have hq : isQuote c = true := by
      simp only [List.head?_cons, Option.some.injEq] at h
      rcases h with h | h <;> subst h <;> decide
    have hlen1 : r.length ≠ 0 := by simp at hlen; omega
    simp [sh_unquote, hq, strlen, cstr_of_no_nul r hr, hlen1, List.dropLast_eq_take]

/-! ### The scanner and the substitution loop -/

theorem findLoop_no_sigil (s : Str) (h : '$' ∉ s) (escaped lit : Bool) (start i : Nat) :
    findLoop escaped lit false false start i s = none := by
  induction s generalizing escaped lit i with
  | nil => rfl
  | cons c r ih =>
    have hc : c ≠ '$' := fun e => h (e ▸ List.mem_cons_self _ _)
    have hr : '$' ∉ r := fun m => h (List.mem_cons_of_mem _ m)
    have ih1 := ih hr
    simp only [findLoop]
    split_ifs <;> first | rfl | exact ih1 _ _ _ | (exfalso; simp_all)

theorem parse_word_plain {T : Type} (table_lookupr : Option T → Str → Option Symbol)
    (fresh : Char) (table : Option T) (s : Str)
    (hnul : '\x00' ∉ s) (hsigil : '$' ∉ s)
    (hq : s.head? ≠ some '\'' ∧ s.head? ≠ some '"') :
    sh_parse_word table_lookupr fresh table s = .ok (some s) := by
  have hf : _find_next_substitution s = none := findLoop_no_sigil s hsigil _ _ _ _
  simp only [sh_parse_word, _substitute_words, hf, cstr_of_no_nul s hnul]
  exact sh_unquote_plain s hnul hq

theorem isIdent_not_special (c : Char) (h : isIdent c = true) :
    c ≠ '\x00' ∧ c ≠ '\'' ∧ c ≠ '\\' ∧ c ≠ '$' ∧ c ≠ '{' ∧ c ≠ '}' := by
  refine ⟨?_, ?_, ?_, ?_, ?_, ?_⟩ <;> (intro e; subst e; revert h; decide)

theorem findLoop_skip_plain (p r : Str)
    (hp : ∀ c ∈ p, c ≠ '$' ∧ c ≠ '\'' ∧ c ≠ '\\' ∧ c ≠ '\x00') (start i : Nat) :
    findLoop false false false false start i (p ++ r)
      = findLoop false false false false start (i + p.length) r := by
  induction p generalizing i with
  | nil => rfl
  | cons c p ih =>
    obtain ⟨h1, h2, h3, h4⟩ := hp c (List.mem_cons_self _ _)
    have ih1 := ih (fun d hd => hp d (List.mem_cons_of_mem _ hd)) (i + 1)
    have e : i + (c :: p).length = i + 1 + p.length := by simp; omega
    rw [e, ← ih1]
    simp only [List.cons_append, findLoop]
    split_ifs <;> first | rfl | (exfalso; simp_all)

theorem findLoop_braced (name t : Str) (hn : ∀ c ∈ name, isIdent c = true)
    (start i : Nat) :
    findLoop false false true true start i (name ++ '}' :: t)
      = some (start, i + name.length) := by
  induction name generalizing i with
  | nil => simp [findLoop]
  | cons c n ih =>
    obtain ⟨h1, h2, h3, h4, h5, h6⟩ := isIdent_not_special c (hn c (List.mem_cons_self _ _))
    have ih1 := ih (fun d hd => hn d (List.mem_cons_of_mem _ hd)) (i + 1)
    have e : i + (c :: n).length = i + 1 + n.length := by simp; omega
    rw [e, ← ih1]
    simp [findLoop, h1, h2, h3, h4, h5, h6]

theorem findLoop_bare (c : Char) (cs t : Str) (hc : isIdent c = true)
    (hn : ∀ d ∈ cs, isIdent d = true)
    (ht : t = [] ∨ ∃ d r, t = d :: r ∧ isIdent d = false)
    (start i : Nat) :
    findLoop false false false true start i (c :: cs ++ t)
      = some (start, i + cs.length) := by
  induction cs generalizing c i with
  | nil =>
    obtain ⟨h1, h2, h3, h4, h5, h6⟩ := isIdent_not_special c hc
    rcases ht with ht | ⟨d, r, ht, hd⟩
    · subst ht
      simp [findLoop, h1, h2, h3, h4, h5, h6]
    · subst ht
      simp only [isIdent, Bool.or_eq_false_iff] at hd
      simp [findLoop, h1, h2, h3, h4, h5, h6, hd.1]
      intro e; subst e; simp at hd
  | cons d n ih =>
    obtain ⟨h1, h2, h3, h4, h5, h6⟩ := isIdent_not_special c hc
    have hd := hn d (List.mem_cons_self _ _)
    have ih1 := ih d hd (fun x hx => hn x (List.mem_cons_of_mem _ hx)) (i + 1)
    have e : i + (d :: n).length = i + 1 + n.length := by simp; omega
    rw [e, ← ih1]
    have hd0 := (isIdent_not_special d hd).1
    simp only [isIdent, Bool.or_eq_true] at hd
    simp only [List.cons_append, findLoop]
    rcases hd with hd | hd
    · simp [h1, h2, h3, h4, h5, h6, hd, hd0]
    · simp at hd
      subst hd
      simp [h1, h2, h3, h4, h5, h6]

theorem drop_length_add {α : Type} (p r : List α) (k : Nat) :
    (p ++ r).drop (p.length + k) = r.drop k := by
  induction p with
  | nil => simp
  | cons a p ih => simp [Nat.succ_add, ih]

theorem getD_length_add {α : Type} (p r : List α) (k : Nat) (d : α) :
    (p ++ r).getD (p.length + k) d = r.getD k d := by
  induction p with
  | nil => simp
  | cons a p ih => simpa [Nat.succ_add] using ih

theorem substLoop_one {T : Type} (L : Option T → Str → Option Symbol) (fresh : Char)
    (table : Option T) (S : Str) (start end_ : Nat) (word v : Str) (n : Nat)
    (hfind : _find_next_substitution S = some (start, end_))
    (hword : (if S.getD (start + 1) '\x00' == '{' && S.getD end_ '\x00' == '}' then
        _strcpy_partial S (start + 2) (end_ - 1)
      else _strcpy_partial S (start + 1) end_) = word)
    (hlook : L table word = some (.string v))
    (ht : '$' ∉ S.drop (end_ + 1)) :
    substLoop L fresh table (n + 2) [] S
      = .ok (S.take start ++ cstr v ++ cstr (S.drop (end_ + 1))) := by
  have hf : _find_next_substitution (S.drop (end_ + 1)) = none :=
    findLoop_no_sigil _ ht _ _ _ _
  rw [substLoop]
  simp only [hfind, hword, hlook]
  rw [substLoop]
  simp only [hf]
  split_ifs with h
  · simp
  · have : cstr (List.drop (end_ + 1) S) = [] := by
      unfold strlen at h
      exact List.length_eq_zero.mp (by omega)
    simp [this]

theorem ident_no_nul (name : Str) (hn : ∀ c ∈ name, isIdent c = true) : '\x00' ∉ name :=
  fun m => (isIdent_not_special _ (hn _ m)).1 rfl

theorem findLoop_sigil (start i : Nat) (rest : Str) :
    findLoop false false false false start i ('$' :: rest)
      = findLoop false false false true i (i + 1) rest := by
  rw [findLoop]
  simp

theorem findLoop_lbrace (start i : Nat) (rest : Str) :
    findLoop false false false true start i ('{' :: rest)
      = findLoop false false true true start (i + 1) rest := by
  rw [findLoop]
  simp

theorem find_braced (p name t : Str)
    (hp : ∀ c ∈ p, c ≠ '$' ∧ c ≠ '\'' ∧ c ≠ '\\' ∧ c ≠ '\x00')
    (hn : ∀ c ∈ name, isIdent c = true) :
    _find_next_substitution (p ++ '$' :: '{' :: (name ++ '}' :: t))
      = some (p.length, p.length + (name.length + 2)) := by
  unfold _find_next_substitution
  rw [findLoop_skip_plain p _ hp, findLoop_sigil, findLoop_lbrace, findLoop_braced name t hn]
  simp; omega

theorem find_bare (p name t : Str)
    (hp : ∀ c ∈ p, c ≠ '$' ∧ c ≠ '\'' ∧ c ≠ '\\' ∧ c ≠ '\x00')
    (hne : name ≠ []) (hn : ∀ c ∈ name, isIdent c = true)
    (ht : t = [] ∨ ∃ d r, t = d :: r ∧ isIdent d = false) :
    _find_next_substitution (p ++ '$' :: (name ++ t))
      = some (p.length, p.length + name.length) := by
  unfold _find_next_substitution
  rw [findLoop_skip_plain p _ hp, findLoop_sigil]
  cases name with
  | nil => exact absurd rfl hne
  | cons c cs =>
    rw [findLoop_bare c cs t (hn c (List.mem_cons_self _ _))
      (fun d hd => hn d (List.mem_cons_of_mem _ hd)) ht]
    simp; omega

theorem subst_braced {T : Type} (L : Option T → Str → Option Symbol) (fresh : Char)
    (table : Option T) (p name v t : Str)
    (hp : ∀ c ∈ p, c ≠ '$' ∧ c ≠ '\'' ∧ c ≠ '\\' ∧ c ≠ '\x00')
    (hn : ∀ c ∈ name, isIdent c = true)
    (hv : '\x00' ∉ v) (ht : '$' ∉ t ∧ '\x00' ∉ t)
    (hlook : L table name = some (.string v)) :
    _substitute_words L fresh table (p ++ '$' :: '{' :: (name ++ '}' :: t))
      = .ok (p ++ v ++ t) := by
  have hfind := find_braced p name t hp hn
  have hlen : (p ++ '$' :: '{' :: (name ++ '}' :: t)).length + 1
      = (p.length + name.length + t.length + 2) + 2 := by simp; omega
  have hdrop : (p ++ '$' :: '{' :: (name ++ '}' :: t)).drop (p.length + (name.length + 2) + 1)
      = t := by
    rw [Nat.add_assoc, drop_length_add]
    simp [Nat.add_assoc]
  have hword : (if (p ++ '$' :: '{' :: (name ++ '}' :: t)).getD (p.length + 1) '\x00' == '{'
        && (p ++ '$' :: '{' :: (name ++ '}' :: t)).getD (p.length + (name.length + 2)) '\x00'
          == '}' then
        _strcpy_partial (p ++ '$' :: '{' :: (name ++ '}' :: t)) (p.length + 2)
          (p.length + (name.length + 2) - 1)
      else _strcpy_partial (p ++ '$' :: '{' :: (name ++ '}' :: t)) (p.length + 1)
          (p.length + (name.length + 2))) = name := by
    have g1 : (p ++ '$' :: '{' :: (name ++ '}' :: t)).getD (p.length + 1) '\x00' = '{' := by
      rw [getD_length_add]; rfl
    have g2 : (p ++ '$' :: '{' :: (name ++ '}' :: t)).getD (p.length + (name.length + 2))
        '\x00' = '}' := by
      rw [getD_length_add]
      have := getD_length_add ('$' :: '{' :: name) ('}' :: t) 0 '\x00'
      simpa using this
    rw [g1, g2]
    simp only [beq_self_eq_true, Bool.and_self, if_true]
    unfold _strcpy_partial
    rw [drop_length_add]
    simp only [List.drop_succ_cons, List.drop_zero]
    rw [cstr_append_of_no_nul _ _ (ident_no_nul name hn)]
    have e : p.length + (name.length + 2) - 1 + 1 - (p.length + 2) = name.length := by omega
    rw [e]
    simp
  unfold _substitute_words
  rw [hlen]
  have h1 := substLoop_one L fresh table _ _ _ name v
    (p.length + name.length + t.length + 2) hfind hword hlook (by rw [hdrop]; exact ht.1)
  rw [hfind]
  simp only
  rw [h1, hdrop, cstr_of_no_nul v hv, cstr_of_no_nul t ht.2]
  simp

theorem subst_bare {T : Type} (L : Option T → Str → Option Symbol) (fresh : Char)
    (table : Option T) (p name v t : Str)
    (hp : ∀ c ∈ p, c ≠ '$' ∧ c ≠ '\'' ∧ c ≠ '\\' ∧ c ≠ '\x00')
    (hne : name ≠ []) (hn : ∀ c ∈ name, isIdent c = true)
    (hv : '\x00' ∉ v) (ht : '$' ∉ t ∧ '\x00' ∉ t)
    (ht1 : t = [] ∨ ∃ d r, t = d :: r ∧ isIdent d = false)
    (hlook : L table name = some (.string v)) :
    _substitute_words L fresh table (p ++ '$' :: (name ++ t)) = .ok (p ++ v ++ t) := by
  have hfind := find_bare p name t hp hne hn ht1
  have hlen : (p ++ '$' :: (name ++ t)).length + 1
      = (p.length + name.length + t.length) + 2 := by simp; omega
  have hdrop : (p ++ '$' :: (name ++ t)).drop (p.length + name.length + 1) = t := by
    rw [Nat.add_assoc, drop_length_add]
    simp [Nat.add_comm]
  have hword : (if (p ++ '$' :: (name ++ t)).getD (p.length + 1) '\x00' == '{'
        && (p ++ '$' :: (name ++ t)).getD (p.length + name.length) '\x00' == '}' then
        _strcpy_partial (p ++ '$' :: (name ++ t)) (p.length + 2) (p.length + name.length - 1)
      else _strcpy_partial (p ++ '$' :: (name ++ t)) (p.length + 1)
          (p.length + name.length)) = name := by
    have g1 : ((p ++ '$' :: (name ++ t)).getD (p.length + 1) '\x00' == '{') = false := by
      rw [getD_length_add]
      cases name with
      | nil => exact absurd rfl hne
      | cons c cs =>
        have := (isIdent_not_special c (hn c (List.mem_cons_self _ _))).2.2.2.2.1
        simpa using this
    rw [g1]
    simp only [Bool.false_and, Bool.false_eq_true, if_false]
    unfold _strcpy_partial
    rw [drop_length_add]
    simp only [List.drop_succ_cons, List.drop_zero]
    rw [cstr_append_of_no_nul _ _ (ident_no_nul name hn)]
    have e : p.length + name.length + 1 - (p.length + 1) = name.length := by omega
    rw [e]
    simp
  unfold _substitute_words
  rw [hlen]
  have h1 := substLoop_one L fresh table _ _ _ name v
    (p.length + name.length + t.length) hfind hword hlook (by rw [hdrop]; exact ht.1)
  rw [hfind]
  simp only
  rw [h1, hdrop, cstr_of_no_nul v hv, cstr_of_no_nul t ht.2]
  simp

/-! ### The tokenizer: stretches of bytes that change no flag -/

theorem sizeLoop_skip (iq : Bool) (l : Str)
    (hl : ∀ c ∈ l, isQuote c = false ∧ c ≠ '\\' ∧ c ≠ '\x00'
      ∧ (iq = true ∨ (isSep c = false ∧ c ≠ ')')))
    (prev : Char) (hprev : prev ≠ '\\') :
    ∃ prev1, prev1 ≠ '\\' ∧
      ∀ q n r, sizeLoop prev iq q n (l ++ r) = sizeLoop prev1 iq q n r := by
  induction l generalizing prev with
  | nil => exact ⟨prev, hprev, fun _ _ _ => rfl⟩
  | cons c l ih =>
    obtain ⟨h1, h2, h3, h4⟩ := hl c (List.mem_cons_self _ _)
    obtain ⟨p1, hp1, hstep⟩ := ih (fun d hd => hl d (List.mem_cons_of_mem _ hd)) c h2
    refine ⟨p1, hp1, fun q n r => ?_⟩
    rw [← hstep q n r, List.cons_append, sizeLoop]
    rcases h4 with h4 | ⟨h4, h5⟩
    · subst h4
      simp [h1, h3]
    · simp [h1, h3, h4, h5]

theorem splitLoop_skip (iq : Bool) (l : Str)
    (hl : ∀ c ∈ l, isQuote c = false ∧ c ≠ '\\' ∧ c ≠ '\x00'
      ∧ (iq = true ∨ (isSep c = false ∧ c ≠ ')')))
    (prev : Char) (hprev : prev ≠ '\\') :
    ∃ prev1, prev1 ≠ '\\' ∧
      ∀ q cur e arr r, splitLoop prev iq q cur e arr (l ++ r)
        = splitLoop prev1 iq q (cur ++ l) e arr r := by
  induction l generalizing prev with
  | nil => exact ⟨prev, hprev, fun _ _ _ _ _ => by simp⟩
  | cons c l ih =>
    obtain ⟨h1, h2, h3, h4⟩ := hl c (List.mem_cons_self _ _)
    obtain ⟨p1, hp1, hstep⟩ := ih (fun d hd => hl d (List.mem_cons_of_mem _ hd)) c h2
    refine ⟨p1, hp1, fun q cur e arr r => ?_⟩
    have e1 : cur ++ c :: l = (cur ++ [c]) ++ l := by simp
    rw [e1, ← hstep q (cur ++ [c]) e arr r, List.cons_append, splitLoop]
    rcases h4 with h4 | ⟨h4, h5⟩
    · subst h4
      simp [h1, h3]
    · simp [h1, h3, h4, h5]

theorem split_quoted_pair (before q : Char) (body w : Str)
    (hq : q = '\'' ∨ q = '"')
    (hbody : ∀ c ∈ body, c ≠ '\'' ∧ c ≠ '"' ∧ c ≠ '\\' ∧ c ≠ '\x00')
    (hw : ∀ c ∈ w, c ≠ ' ' ∧ c ≠ '\t' ∧ c ≠ '\n' ∧ c ≠ '\'' ∧ c ≠ '"' ∧ c ≠ '\\'
      ∧ c ≠ '(' ∧ c ≠ ')' ∧ c ≠ '\x00') :
    sh_split_array before ('(' :: q :: (body ++ q :: ' ' :: (w ++ [')'])))
      = .ok (elements [q :: (body ++ [q]), w]) := by
  have hqq : isQuote q = true := by rcases hq with h | h <;> subst h <;> decide
  have hqb : q ≠ '\\' := by rcases hq with h | h <;> subst h <;> decide
  have hb : ∀ c ∈ body, isQuote c = false ∧ c ≠ '\\' ∧ c ≠ '\x00'
      ∧ (true = true ∨ (isSep c = false ∧ c ≠ ')')) := by
    intro c hc
    obtain ⟨h1, h2, h3, h4⟩ := hbody c hc
    exact ⟨by simp [isQuote, h1, h2], h3, h4, Or.inl rfl⟩
  have hw1 : ∀ c ∈ w, isQuote c = false ∧ c ≠ '\\' ∧ c ≠ '\x00'
      ∧ (false = true ∨ (isSep c = false ∧ c ≠ ')')) := by
    intro c hc
    obtain ⟨h1, h2, h3, h4, h5, h6, _, h8, h9⟩ := hw c hc
    exact ⟨by simp [isQuote, h4, h5], h6, h9, Or.inr ⟨by simp [isSep, h1, h2, h3], h8⟩⟩
  obtain ⟨a1, ha1, hs1⟩ := sizeLoop_skip true body hb q hqb
  obtain ⟨a2, ha2, hs2⟩ := sizeLoop_skip false w hw1 ' ' (by decide)
  obtain ⟨b1, hb1, ht1⟩ := splitLoop_skip true body hb q hqb
  obtain ⟨b2, hb2, ht2⟩ := splitLoop_skip false w hw1 '\x00' (by decide)
  have hsize : _array_size before ('(' :: q :: (body ++ q :: ' ' :: (w ++ [')']))) = 2 := by
    simp only [_array_size, beq_self_eq_true, if_true]
    rw [sizeLoop]
    simp only [hqq, if_true, show ('(' != '\\') = true by decide, Bool.false_and, Bool.not_false]
    rw [hs1, sizeLoop]
    simp only [hqq, if_true, bne_iff_ne, ne_eq, ha1, not_false_eq_true, beq_self_eq_true,
      Bool.and_self, Bool.not_true]
    rw [sizeLoop]
    simp only [show isQuote ' ' = false by decide, show isSep ' ' = true by decide,
      Bool.false_eq_true, if_false, if_true, Bool.not_false, Bool.true_and, bne_iff_ne, ne_eq,
      hqb, not_false_eq_true]
    rw [hs2, sizeLoop]
    simp [isQuote, isSep, ha2]
  unfold sh_split_array
  simp only [hsize]
  simp only [show ((2 : Nat) == 0) = false by decide, Bool.false_eq_true, if_false,
    List.headD_cons, List.tail_cons]
  rw [splitLoop]
  simp only [hqq, if_true, show ('(' != '\\') = true by decide, Bool.false_and, Bool.not_false]
  rw [ht1, splitLoop]
  simp only [hqq, if_true, bne_iff_ne, ne_eq, hb1, not_false_eq_true, beq_self_eq_true,
    Bool.and_self, Bool.not_true]
  rw [splitLoop]
  have hsp : isspace q = false := by rcases hq with h | h <;> subst h <;> decide
  simp only [show isQuote ' ' = false by decide, show isSep ' ' = true by decide,
    Bool.false_eq_true, if_false, if_true, Bool.not_false, Bool.true_and, bne_iff_ne, ne_eq,
    hqb, not_false_eq_true]
  have hlen : (([] ++ [q] ++ body ++ [q] : Str).length != 1) = true := by simp
  have hhead : ([] ++ [q] ++ body ++ [q] : Str).headD '\x00' = q := by simp
  simp only [hlen, hhead, hsp, Bool.not_false, Bool.and_self, if_true]
  simp only [store, List.replicate, List.length_append, List.length_cons, List.length_nil,
    show (0 < 0 + 1 + 1 + 1) by omega, if_true, List.cons_append, List.nil_append, List.set]
  rw [ht2, splitLoop]
  simp [isQuote, isSep, hb2, store, elements]

/-! ### The loop of `sh_parse_array` over a fully written block -/

theorem parseLoop_elements {T : Type} (L : Option T → Str → Option Symbol) (fresh : Char)
    (table : Option T) (ws : List Str) :
    parseLoop L fresh table (elements ws)
      = match ws.mapM (sh_parse_word L fresh table) with
        | .error e => .error e
        | .ok ps => .ok (ps.map ptrSlot ++ [Slot.null]) := by
  induction ws with
  | nil => rfl
  | cons w ws ih =>
    have e : elements (w :: ws) = Slot.str w :: elements ws := rfl
    rw [e, parseLoop, ih, List.mapM_cons]
    cases h1 : sh_parse_word L fresh table w with
    | error e1 => rfl
    | ok p =>
      cases h2 : List.mapM (sh_parse_word L fresh table) ws with
      | error e2 => rfl
      | ok ps =>
        cases p <;> rfl

/-! ### The iteration budget of `_substitute_words` is never used up -/

theorem findLoop_bounds (s : Str) (escaped lit brace v : Bool) (start i a z : Nat)
    (h : findLoop escaped lit brace v start i s = some (a, z)) :
    i ≤ z ∧ z < i + s.length := by
  induction s generalizing escaped lit brace v start i with
  | nil => simp [findLoop] at h
  | cons c r ih =>
    rw [findLoop] at h
    simp only [List.length_cons]
    dsimp only at h
    split_ifs at h
    all_goals first
      | (have hb := ih _ _ _ _ _ _ h; omega)
      | (simp only [Option.some.injEq, Prod.mk.injEq] at h; omega)

theorem _array_cat_no_fuel (fresh : Char) (array : List Str) :
    _array_cat fresh array ≠ .error .fuel := by
  unfold _array_cat
  cases array with
  | nil => simp
  | cons a rest =>
    simp only
    split_ifs <;> simp

theorem substLoop_budget {T : Type} (L : Option T → Str → Option Symbol) (fresh : Char)
    (table : Option T) (n : Nat) (result s : Str) (hn : s.length < n) :
    substLoop L fresh table n result s ≠ .error .fuel := by
  induction n generalizing result s with
  | zero => omega
  | succ n ih =>
    rw [substLoop]
    cases hf : _find_next_substitution s with
    | none =>
      simp only
      split_ifs <;> simp
    | some se =>
      obtain ⟨start, end_⟩ := se
      have hb := findLoop_bounds s _ _ _ _ _ _ _ _ hf
      have hd : (s.drop (end_ + 1)).length < n := by
        rw [List.length_drop]; omega
      simp only
      split
      · exact ih _ _ hd
      · exact ih _ _ hd
      · rename_i values _
        have hc := _array_cat_no_fuel fresh values
        split
        · rename_i e he
          intro h
          rw [he] at hc
          cases h
          exact hc rfl
        · simp
        · exact ih _ _ hd

theorem _substitute_words_budget {T : Type} (L : Option T → Str → Option Symbol)
    (fresh : Char) (table : Option T) (s : Str) :
    _substitute_words L fresh table s ≠ .error .fuel := by
  unfold _substitute_words
  split
  · simp
  · exact substLoop_budget L fresh table _ _ _ (Nat.lt_succ_self _)

/-! ### The scanner: escaped sigils, reported offsets, literal regions -/

theorem findLoop_escaped_sigil (start i : Nat) (rest : Str) :
    findLoop false false false false start i ('\\' :: '$' :: rest)
      = findLoop false false false false start (i + 1 + 1) rest := by
  rw [findLoop]
  simp only [show ('\\' == '\x00') = false by decide, show ('\\' == '\'') = false by decide,
    beq_self_eq_true, Bool.false_eq_true, if_false, if_true, Bool.not_false]
  rw [findLoop]
  simp

theorem find_escaped_sigil (p name t : Str)
    (hp : ∀ c ∈ p, c ≠ '$' ∧ c ≠ '\'' ∧ c ≠ '\\' ∧ c ≠ '\x00')
    (hn : ∀ c ∈ name, isIdent c = true) (ht : '$' ∉ t) :
    _find_next_substitution (p ++ '\\' :: '$' :: (name ++ t)) = none := by
  unfold _find_next_substitution
  rw [findLoop_skip_plain p _ hp, findLoop_escaped_sigil]
  apply findLoop_no_sigil
  intro m
  rcases List.mem_append.mp m with m | m
  · exact (isIdent_not_special _ (hn _ m)).2.2.2.1 rfl
  · exact ht m

theorem getD_zero_eq_headD {α : Type} (r : List α) (d : α) : r.getD 0 d = r.headD d := by
  cases r <;> rfl

/-- What a reported pair of offsets satisfies in the scanned string `full`, which
is `pre` (already read) followed by `s` (still to read). -/
theorem findLoop_sound (pre s : Str) (escaped lit brace v : Bool) (start a z : Nat)
    (hv : v = true → start < pre.length ∧ (pre ++ s).getD start '\x00' = '$')
    (hb : brace = true → v = true)
    (h : findLoop escaped lit brace v start pre.length s = some (a, z)) :
    a < z ∧ z < (pre ++ s).length ∧ (pre ++ s).getD a '\x00' = '$'
      ∧ ((pre ++ s).getD z '\x00' = '}'
        ∨ (((pre ++ s).getD z '\x00' ≠ '\x00' ∧ (pre ++ s).getD z '\x00' ≠ '\''
            ∧ (pre ++ s).getD z '\x00' ≠ '\\' ∧ (pre ++ s).getD z '\x00' ≠ '$'
            ∧ (pre ++ s).getD z '\x00' ≠ '{')
          ∧ isIdent ((pre ++ s).getD (z + 1) '\x00') = false)) := by
  induction s generalizing pre escaped lit brace v start with
  | nil => simp [findLoop] at h
  | cons c r ih =>
    have e : pre ++ c :: r = (pre ++ [c]) ++ r := by simp
    have el : (pre ++ [c]).length = pre.length + 1 := by simp
    have hc : (pre ++ c :: r).getD pre.length '\x00' = c := by
      have := getD_length_add pre (c :: r) 0 '\x00'
      simpa using this
    have hc1 : (pre ++ c :: r).getD (pre.length + 1) '\x00' = r.headD '\x00' := by
      rw [getD_length_add]
      exact getD_zero_eq_headD r _
    have hlen : pre.length < (pre ++ c :: r).length := by simp
    -- the recursive call keeps the facts about `start`
    have keep : ∀ (e1 l1 b1 : Bool), (b1 = true → v = true) →
        findLoop e1 l1 b1 v start (pre.length + 1) r = some (a, z) →
        a < z ∧ z < (pre ++ c :: r).length ∧ (pre ++ c :: r).getD a '\x00' = '$'
          ∧ ((pre ++ c :: r).getD z '\x00' = '}'
            ∨ (((pre ++ c :: r).getD z '\x00' ≠ '\x00' ∧ (pre ++ c :: r).getD z '\x00' ≠ '\''
                ∧ (pre ++ c :: r).getD z '\x00' ≠ '\\' ∧ (pre ++ c :: r).getD z '\x00' ≠ '$'
                ∧ (pre ++ c :: r).getD z '\x00' ≠ '{')
              ∧ isIdent ((pre ++ c :: r).getD (z + 1) '\x00') = false)) := by
      intro e1 l1 b1 hb1 h1
      rw [e]
      rw [← el] at h1
      refine ih (pre ++ [c]) e1 l1 b1 v start ?_ hb1 h1
      intro hv1
      obtain ⟨h2, h3⟩ := hv hv1
      rw [← e]
      exact ⟨by rw [el]; omega, h3⟩
    rw [findLoop] at h
    dsimp only at h
    split_ifs at h with h0 h1 h2 h3 h4 h5 h6 h7 h8
    · exact keep _ _ _ hb h
    · exact keep _ _ _ hb h
    · -- the sigil: `*start` is set to this offset
      have hcs : c = '$' := by simpa using h3
      rw [e]
      rw [← el] at h
      refine ih (pre ++ [c]) _ _ brace true pre.length ?_ (fun _ => rfl) h
      intro _
      rw [← e, hc]
      exact ⟨by rw [el]; omega, hcs⟩
    · exact keep _ _ _ hb h
    · refine keep _ _ _ ?_ h
      intro hb1
      simp only [Bool.and_eq_true] at hb1
      exact hb1.1
    · -- closing brace in brace mode
      simp only [Option.some.injEq, Prod.mk.injEq] at h
      obtain ⟨rfl, rfl⟩ := h
      obtain ⟨h9, h10⟩ := hv (hb h7)
      refine ⟨h9, hlen, h10, Or.inl ?_⟩
      rw [hc]
      simpa using h6
    · exact keep _ _ _ hb h
    · -- end of a bare word, found by lookahead
      simp only [Option.some.injEq, Prod.mk.injEq] at h
      obtain ⟨rfl, rfl⟩ := h
      simp only [Bool.and_eq_true, Bool.not_eq_true', Bool.or_eq_true, bne_iff_ne, ne_eq,
        beq_iff_eq] at h8
      obtain ⟨⟨hv1, _⟩, h11⟩ := h8
      obtain ⟨h9, h10⟩ := hv hv1
      refine ⟨h9, hlen, h10, Or.inr ⟨?_, ?_⟩⟩
      · rw [hc]
        simp only [beq_iff_eq] at h0 h1 h2 h3 h5
        exact ⟨h0, h1, h2, h3, h5⟩
      · rw [hc1]
        rcases h11 with ⟨h12, h13⟩ | h12
        · simp only [isIdent, h12, Bool.false_or, beq_eq_false_iff_ne, ne_eq]
          exact h13
        · rw [h12]; decide
    · exact keep _ _ _ hb h

theorem findLoop_literal_only (s : Str) (escaped lit : Bool) (start i : Nat)
    (h : sigilsInLiteral escaped lit s = true) :
    findLoop escaped lit false false start i s = none := by
  induction s generalizing escaped lit i with
  | nil => rfl
  | cons c r ih =>
    rw [sigilsInLiteral] at h
    rw [findLoop]
    split_ifs at h with h1 h2 h3 h4
    · -- a quote
      have e : (!escaped && !lit) = (!lit && !escaped) := Bool.and_comm _ _
      have hc0 : (c == '\x00') = false := by
        have : c = '\'' := by simpa using h1
        subst this; decide
      simp only [hc0, h1, Bool.false_eq_true, if_false, if_true, e]
      exact ih _ _ _ h
    · have hc0 : (c == '\x00') = false := by
        have : c = '\\' := by simpa using h2
        subst this; decide
      simp only [hc0, h1, h2, Bool.false_eq_true, if_false, if_true]
      exact ih _ _ _ h
    · have hc0 : (c == '\x00') = false := by
        have : c = '$' := by simpa using h3
        subst this; decide
      simp only [Bool.and_eq_true] at h
      obtain ⟨hl, h⟩ := h
      subst hl
      simp only [hc0, h1, h2, h3, Bool.false_eq_true, if_false, if_true, Bool.not_true,
        Bool.and_false]
      exact ih _ _ _ h
    · simp only [Bool.and_eq_true, Bool.not_eq_true'] at h
      obtain ⟨he, h⟩ := h
      subst he
      simp only [Bool.or_eq_true] at h4
      rcases h4 with h5 | h5
      · have hc : c = '{' := by simpa using h5
        subst hc
        simpa using ih false lit (i + 1) h
      · have hc : c = '}' := by simpa using h5
        subst hc
        simpa using ih false lit (i + 1) h
    · simp only [Bool.or_eq_true, not_or] at h4
      simp only [h1, h2, h3, h4.1, h4.2, Bool.false_eq_true, if_false, Bool.false_and,
        Bool.and_false]
      split_ifs
      · rfl
      · exact ih _ _ _ h

theorem substLoop_budget_irrelevant {T : Type} (L : Option T → Str → Option Symbol)
    (fresh : Char) (table : Option T) (n m : Nat) (result s : Str)
    (hn : s.length < n) (hm : s.length < m) :
    substLoop L fresh table n result s = substLoop L fresh table m result s := by
  induction n generalizing m result s with
  | zero => omega
  | succ n ih =>
    cases m with
    | zero => omega
    | succ m =>
      rw [substLoop, substLoop]
      cases hf : _find_next_substitution s with
      | none => rfl
      | some se =>
        obtain ⟨start, end_⟩ := se
        have hb := findLoop_bounds s _ _ _ _ _ _ _ _ hf
        have hd : (s.drop (end_ + 1)).length < n := by
          rw [List.length_drop]; omega
        have hd2 : (s.drop (end_ + 1)).length < m := by
          rw [List.length_drop]; omega
        simp only
        split
        · exact ih _ _ _ hd hd2
        · exact ih _ _ _ hd hd2
        · split
          · rfl
          · rfl
          · exact ih _ _ _ hd hd2

theorem find_sound (s : Str) (start end_ : Nat)
    (h : _find_next_substitution s = some (start, end_)) :
    start < end_ ∧ end_ < s.length ∧ s.getD start '\x00' = '$'
      ∧ (s.getD end_ '\x00' = '}'
        ∨ ((s.getD end_ '\x00' ≠ '\x00' ∧ s.getD end_ '\x00' ≠ '\''
            ∧ s.getD end_ '\x00' ≠ '\\' ∧ s.getD end_ '\x00' ≠ '$'
            ∧ s.getD end_ '\x00' ≠ '{')
          ∧ isIdent (s.getD (end_ + 1) '\x00') = false)) := by
  have := findLoop_sound [] s false false false false 0 start end_ (by simp) (by simp) h
  simpa using this

/-! ### The tokenizer on lists of words -/

theorem set_length_append {α : Type} (pre tl : List α) (x y : α) :
    (pre ++ x :: tl).set pre.length y = pre ++ y :: tl := by
  induction pre with
  | nil => rfl
  | cons a p ih => simp [ih]

theorem plain_of_word (w : Str)
    (hw : ∀ c ∈ w, isspace c = false ∧ c ≠ '\'' ∧ c ≠ '"' ∧ c ≠ '\\' ∧ c ≠ '(' ∧ c ≠ ')'
      ∧ c ≠ '\x00') :
    ∀ c ∈ w, isQuote c = false ∧ c ≠ '\\' ∧ c ≠ '\x00'
      ∧ (false = true ∨ (isSep c = false ∧ c ≠ ')')) := by
  intro c hc
  obtain ⟨h1, h2, h3, h4, _, h6, h7⟩ := hw c hc
  refine ⟨by simp [isQuote, h2, h3], h4, h7, Or.inr ⟨?_, h6⟩⟩
  simp only [isspace, Bool.or_eq_false_iff] at h1
  simp [isSep, h1.1.1.1.1.1, h1.1.1.1.1.2, h1.1.1.1.2]

theorem sep_facts (s : Char) (hs : s = ' ' ∨ s = '\t' ∨ s = '\n') :
    isQuote s = false ∧ isSep s = true ∧ s ≠ '\\' := by
  rcases hs with h | h | h <;> subst h <;> decide

theorem sizeLoop_words (rest : List (Char × Str)) (prev q : Char) (n : Nat) (w : Str)
    (hprev : prev ≠ '\\')
    (hw : ∀ c ∈ w, isspace c = false ∧ c ≠ '\'' ∧ c ≠ '"' ∧ c ≠ '\\' ∧ c ≠ '(' ∧ c ≠ ')'
      ∧ c ≠ '\x00')
    (hrest : ∀ p ∈ rest, (p.1 = ' ' ∨ p.1 = '\t' ∨ p.1 = '\n')
      ∧ ∀ c ∈ p.2, isspace c = false ∧ c ≠ '\'' ∧ c ≠ '"' ∧ c ≠ '\\' ∧ c ≠ '(' ∧ c ≠ ')'
        ∧ c ≠ '\x00') :
    sizeLoop prev false q n (w ++ (joinSep rest ++ [')'])) = n + rest.length + 1 := by
  induction rest generalizing prev n w with
  | nil =>
    obtain ⟨p1, hp1, hstep⟩ := sizeLoop_skip false w (plain_of_word w hw) prev hprev
    rw [hstep]
    simp [joinSep, sizeLoop, isQuote, isSep, hp1]
  | cons p rest ih =>
    obtain ⟨s, w1⟩ := p
    obtain ⟨p1, hp1, hstep⟩ := sizeLoop_skip false w (plain_of_word w hw) prev hprev
    obtain ⟨hs, hw1⟩ := hrest (s, w1) (List.mem_cons_self _ _)
    obtain ⟨f1, f2, f3⟩ := sep_facts s hs
    rw [hstep]
    simp only [joinSep, List.cons_append, List.append_assoc]
    rw [sizeLoop]
    simp only [f1, f2, Bool.false_eq_true, if_false, if_true, Bool.not_false, Bool.true_and,
      bne_iff_ne, ne_eq, hp1, not_false_eq_true]
    rw [ih s (n + 1) w1 f3 hw1 (fun p hp => hrest p (List.mem_cons_of_mem _ hp))]
    simp only [List.length_cons]
    omega

theorem splitLoop_words (rest : List (Char × Str)) (prev q : Char) (w : Str)
    (pre tl : List Slot) (hprev : prev ≠ '\\')
    (hlen : 2 ≤ w.length)
    (hw : ∀ c ∈ w, isspace c = false ∧ c ≠ '\'' ∧ c ≠ '"' ∧ c ≠ '\\' ∧ c ≠ '(' ∧ c ≠ ')'
      ∧ c ≠ '\x00')
    (hrest : ∀ p ∈ rest, (p.1 = ' ' ∨ p.1 = '\t' ∨ p.1 = '\n') ∧ 2 ≤ p.2.length
      ∧ ∀ c ∈ p.2, isspace c = false ∧ c ≠ '\'' ∧ c ≠ '"' ∧ c ≠ '\\' ∧ c ≠ '(' ∧ c ≠ ')'
        ∧ c ≠ '\x00') :
    splitLoop prev false q [] pre.length
        (pre ++ (List.replicate (rest.length + 1) Slot.uninit ++ tl))
        (w ++ (joinSep rest ++ [')']))
      = .ok (pre ++ ((w :: rest.map Prod.snd).map Slot.str ++ tl)) := by
  induction rest generalizing prev w pre with
  | nil =>
    obtain ⟨p1, hp1, hstep⟩ := splitLoop_skip false w (plain_of_word w hw) prev hprev
    rw [hstep]
    simp only [joinSep, List.nil_append, splitLoop]
    simp only [show isQuote ')' = false by decide, show isSep ')' = false by decide,
      Bool.false_eq_true, if_false, beq_self_eq_true, if_true, Bool.not_false, Bool.true_and,
      bne_iff_ne, ne_eq, hp1, not_false_eq_true, store, List.length_nil, Nat.zero_add,
      List.replicate, List.cons_append, List.nil_append, List.length_append, List.length_cons,
      List.map_nil, List.map_cons]
    rw [if_pos (by omega), set_length_append]
  | cons p rest ih =>
    obtain ⟨s, w1⟩ := p
    obtain ⟨p1, hp1, hstep⟩ := splitLoop_skip false w (plain_of_word w hw) prev hprev
    obtain ⟨hs, hl1, hw1⟩ := hrest (s, w1) (List.mem_cons_self _ _)
    obtain ⟨f1, f2, _⟩ := sep_facts s hs
    have hhead : isspace (w.headD '\x00') = false := by
      cases w with
      | nil => simp at hlen
      | cons c w => exact (hw c (List.mem_cons_self _ _)).1
    have hne1 : (w.length != 1) = true := by
      simp only [bne_iff_ne, ne_eq]; omega
    rw [hstep]
    simp only [joinSep, List.cons_append, List.append_assoc, List.nil_append]
    rw [splitLoop]
    simp only [f1, f2, Bool.false_eq_true, if_false, if_true, Bool.not_false, Bool.true_and,
      bne_iff_ne, ne_eq, hp1, not_false_eq_true, hhead, Bool.and_true]
    simp only [bne_iff_ne, ne_eq] at hne1
    simp only [hne1, not_false_eq_true, if_true, store, List.length_cons, List.replicate,
      List.cons_append, List.length_append]
    rw [if_pos (by omega), set_length_append]
    have h1 := ih '\x00' w1 (pre ++ [Slot.str w]) (by decide) hl1 hw1
      (fun p hp => hrest p (List.mem_cons_of_mem _ hp))
    simpa [List.replicate] using h1

theorem split_words_all (before : Char) (w : Str) (rest : List (Char × Str))
    (hlen : 2 ≤ w.length)
    (hw : ∀ c ∈ w, isspace c = false ∧ c ≠ '\'' ∧ c ≠ '"' ∧ c ≠ '\\' ∧ c ≠ '(' ∧ c ≠ ')'
      ∧ c ≠ '\x00')
    (hrest : ∀ p ∈ rest, (p.1 = ' ' ∨ p.1 = '\t' ∨ p.1 = '\n') ∧ 2 ≤ p.2.length
      ∧ ∀ c ∈ p.2, isspace c = false ∧ c ≠ '\'' ∧ c ≠ '"' ∧ c ≠ '\\' ∧ c ≠ '(' ∧ c ≠ ')'
        ∧ c ≠ '\x00') :
    _array_size before ('(' :: (w ++ (joinSep rest ++ [')']))) = (w :: rest.map Prod.snd).length
      ∧ sh_split_array before ('(' :: (w ++ (joinSep rest ++ [')'])))
        = .ok (elements (w :: rest.map Prod.snd)) := by
  have hsize : _array_size before ('(' :: (w ++ (joinSep rest ++ [')']))) = rest.length + 1 := by
    simp only [_array_size, beq_self_eq_true, if_true]
    rw [sizeLoop_words rest '(' '\x00' 0 w (by decide) hw
      (fun p hp => ⟨(hrest p hp).1, (hrest p hp).2.2⟩)]
    omega
  refine ⟨by rw [hsize]; simp, ?_⟩
  unfold sh_split_array
  simp only [hsize, List.headD_cons, List.tail_cons]
  rw [if_neg (by simp)]
  have := splitLoop_words rest '(' '\x00' w [] [Slot.null] (by decide) hlen hw hrest
  simpa [elements] using this

/-! ### The tokenizer on a literal without closing parenthesis -/

theorem set_append_of_lt {α : Type} (X Y : List α) (i : Nat) (a : α) (h : i < X.length) :
    (X ++ Y).set i a = X.set i a ++ Y := by
  induction X generalizing i with
  | nil => simp at h
  | cons x X ih =>
    cases i with
    | zero => rfl
    | succ i =>
      simp only [List.length_cons] at h
      simp [ih i (by omega)]

theorem open_facts (c : Char)
    (h : c ≠ '\'' ∧ c ≠ '"' ∧ c ≠ '\\' ∧ c ≠ ')' ∧ c ≠ '\x00') :
    isQuote c = false ∧ (c == ')') = false ∧ (c == '\x00') = false := by
  obtain ⟨h1, h2, _, h4, h5⟩ := h
  simp [isQuote, h1, h2, h4, h5]

/-- The count of `_array_size` over text without quotes, backslashes and closing
parentheses: one per separator, and one more for the parenthesis that ends it. -/
theorem sizeLoop_open (body : Str) (prev q : Char) (n : Nat) (hprev : prev ≠ '\\')
    (hb : ∀ c ∈ body, c ≠ '\'' ∧ c ≠ '"' ∧ c ≠ '\\' ∧ c ≠ ')' ∧ c ≠ '\x00') :
    sizeLoop prev false q n body = n + body.countP isSep
      ∧ sizeLoop prev false q n (body ++ [')']) = n + body.countP isSep + 1 := by
  induction body generalizing prev n with
  | nil => simp [sizeLoop, isQuote, isSep, hprev]
  | cons c r ih =>
    have hc := hb c (List.mem_cons_self _ _)
    obtain ⟨f1, f2, f3⟩ := open_facts c hc
    have ih1 := fun m => ih c m hc.2.2.1 (fun d hd => hb d (List.mem_cons_of_mem _ hd))
    have hcount : (c :: r).countP isSep = r.countP isSep + (if isSep c = true then 1 else 0) :=
      List.countP_cons _ _ _
    refine ⟨?_, ?_⟩
    · rw [sizeLoop]
      simp only [f1, f2, f3, Bool.false_eq_true, if_false, Bool.not_false, Bool.true_and,
        bne_iff_ne, ne_eq, hprev, not_false_eq_true, if_true]
      split_ifs with hs
      · rw [(ih1 (n + 1)).1, hcount, if_pos hs]; omega
      · rw [(ih1 n).1, hcount, if_neg hs]; omega
    · rw [List.cons_append, sizeLoop]
      simp only [f1, f2, f3, Bool.false_eq_true, if_false, Bool.not_false, Bool.true_and,
        bne_iff_ne, ne_eq, hprev, not_false_eq_true, if_true]
      split_ifs with hs
      · rw [(ih1 (n + 1)).2, hcount, if_pos hs]; omega
      · rw [(ih1 n).2, hcount, if_neg hs]; omega

/-- The run of `sh_split_array` over an unterminated literal, side by side with
the run over the same literal closed by a parenthesis, whose block has one
slot more. -/
theorem splitLoop_open (body : Str) (prev q : Char) (cur : Str) (elem : Nat) (X : List Slot)
    (hprev : prev ≠ '\\')
    (hb : ∀ c ∈ body, c ≠ '\'' ∧ c ≠ '"' ∧ c ≠ '\\' ∧ c ≠ ')' ∧ c ≠ '\x00')
    (hroom : elem + body.countP isSep ≤ X.length) :
    ∃ (X1 : List Slot) (cur1 : Str) (e1 : Nat), X1.length = X.length ∧ e1 ≤ X.length
      ∧ splitLoop prev false q cur elem (X ++ [Slot.null]) body = .ok (X1 ++ [Slot.null])
      ∧ splitLoop prev false q cur elem (X ++ [Slot.uninit, Slot.null]) (body ++ [')'])
        = .ok ((X1 ++ [Slot.uninit, Slot.null]).set e1 (Slot.str cur1)) := by
  induction body generalizing prev cur elem X with
  | nil =>
    simp only [List.countP_nil, Nat.add_zero] at hroom
    refine ⟨X, cur, elem, rfl, hroom, rfl, ?_⟩
    simp only [List.nil_append, splitLoop, show isQuote ')' = false by decide,
      show isSep ')' = false by decide, Bool.false_eq_true, if_false, beq_self_eq_true,
      if_true, Bool.not_false, Bool.true_and, bne_iff_ne, ne_eq, hprev, not_false_eq_true,
      store, List.length_append, List.length_cons, List.length_nil]
    rw [if_pos (by omega)]
  | cons c r ih =>
    have hc := hb c (List.mem_cons_self _ _)
    obtain ⟨f1, f2, f3⟩ := open_facts c hc
    have hr := fun d hd => hb d (List.mem_cons_of_mem c hd)
    simp only [List.cons_append, splitLoop, f1, f2, f3, Bool.false_eq_true, if_false,
      Bool.not_false, Bool.true_and, bne_iff_ne, ne_eq, hprev, not_false_eq_true, if_true]
    cases hs : isSep c with
    | true =>
      simp only [List.countP_cons, hs, if_true] at hroom
      simp only [if_true]
      split_ifs with hk
      · -- the element is stored in both runs, at a slot in front of the last ones
        have hlt : elem < X.length := by omega
        simp only [store, List.length_append, List.length_cons, List.length_nil]
        rw [if_pos (by omega), if_pos (by omega), set_append_of_lt X _ elem _ hlt,
          set_append_of_lt X _ elem _ hlt]
        obtain ⟨X1, cur1, e1, h1, h2, h3, h4⟩ :=
          ih '\x00' [] (elem + 1) (X.set elem (Slot.str cur)) (by decide) hr
            (by simp only [List.length_set]; omega)
        refine ⟨X1, cur1, e1, ?_, ?_, h3, h4⟩
        · simpa using h1
        · simpa using h2
      · obtain ⟨X1, cur1, e1, h1, h2, h3, h4⟩ :=
          ih '\x00' [] elem X (by decide) hr (by omega)
        exact ⟨X1, cur1, e1, h1, h2, h3, h4⟩
    | false =>
      simp only [List.countP_cons, hs, Bool.false_eq_true, if_false, Nat.add_zero] at hroom
      simp only [Bool.false_eq_true, if_false]
      exact ih c (cur ++ [c]) elem X hc.2.2.1 hr hroom

theorem replicate_succ_append {α : Type} (n : Nat) (a b : α) :
    List.replicate (n + 1) a ++ [b] = List.replicate n a ++ [a, b] := by
  induction n with
  | zero => rfl
  | succ n ih =>
    rw [List.replicate_succ, List.cons_append, ih]
    rfl

/-- When the closed literal gives a fully written block, the unterminated
literal gives the same block without the last element. -/
theorem split_open_drops_last (before : Char) (body : Str) (ws : List Str) (w : Str)
    (hb : ∀ c ∈ body, c ≠ '\'' ∧ c ≠ '"' ∧ c ≠ '\\' ∧ c ≠ ')' ∧ c ≠ '\x00')
    (h : sh_split_array before ('(' :: (body ++ [')'])) = .ok (elements (ws ++ [w]))) :
    sh_split_array before ('(' :: body) = .ok (elements ws) := by
  have hs := sizeLoop_open body '(' '\x00' 0 (by decide) hb
  simp only [Nat.zero_add] at hs
  obtain ⟨X1, cur1, e1, h1, h2, h3, h4⟩ :=
    splitLoop_open body '(' '\x00' [] 0 (List.replicate (body.countP isSep) Slot.uninit)
      (by decide) hb (by simp)
  simp only [List.length_replicate] at h1 h2
  -- the closed run
  have hsz2 : _array_size before ('(' :: (body ++ [')'])) = body.countP isSep + 1 := by
    simp only [_array_size, beq_self_eq_true, if_true]
    exact hs.2
  unfold sh_split_array at h
  simp only [hsz2, List.headD_cons, List.tail_cons] at h
  rw [if_neg (by simp), replicate_succ_append, h4] at h
  simp only [Except.ok.injEq] at h
  -- the last element sits in the slot added for the parenthesis
  have hl : X1.length = ws.length := by
    have := congrArg List.length h
    simp only [List.length_set, List.length_append, List.length_cons, List.length_nil,
      elements, List.length_map] at this
    omega
  have he : e1 = X1.length := by
    by_contra hne
    have hlt : e1 < X1.length := by omega
    rw [set_append_of_lt X1 _ e1 _ hlt] at h
    have h5 := congrArg (fun l => l.getD X1.length Slot.null) h
    simp only [elements, List.map_append, List.map_cons, List.map_nil,
      List.append_assoc] at h5
    have e5 : X1.length = (X1.set e1 (Slot.str cur1)).length + 0 := by simp
    have e6 : X1.length = (ws.map Slot.str).length + 0 := by simp [hl]
    rw [show (X1.set e1 (Slot.str cur1) ++ [Slot.uninit, Slot.null]).getD X1.length Slot.null
        = Slot.uninit by
        conv_lhs => rw [e5]
        rw [getD_length_add]; rfl] at h5
    rw [show (ws.map Slot.str ++ ([Slot.str w] ++ [Slot.null])).getD X1.length Slot.null
        = Slot.str w by
        conv_lhs => rw [e6]
        rw [getD_length_add]; rfl] at h5
    cases h5
  have hX : X1 = ws.map Slot.str := by
    rw [he, set_length_append] at h
    simp only [elements, List.map_append, List.map_cons, List.map_nil,
      List.append_assoc] at h
    exact (List.append_inj h (by simp [hl])).1
  -- the unterminated run
  have hsz1 : _array_size before ('(' :: body) = body.countP isSep := by
    simp only [_array_size, beq_self_eq_true, if_true]
    exact hs.1
  unfold sh_split_array
  simp only [hsz1, List.headD_cons, List.tail_cons]
  split_ifs with h0
  · have h00 : body.countP isSep = 0 := by simpa using h0
    rw [h00] at h1
    have : ws = [] := by
      apply List.eq_nil_of_length_eq_zero
      omega
    subst this
    simp [h00, elements]
  · rw [h3, hX]
    rfl

/-! ## The claims -/

/-- Claim C1 (fails on the code).  `tokenize_array("(a b c)")` should be
`["a","b","c"]`.  In `sh_split_array` an element that ends at a separator is
stored only when `strlen(start_ptr) != 1`, so the one-character words `a` and
`b` are skipped: the block of four pointers holds `"c"`, two slots that were
never written, and the terminator. -/
theorem split_abc_drops_single_chars (before : Char) :
    sh_split_array before "(a b c)".toList
      = .ok [Slot.str "c".toList, Slot.uninit, Slot.uninit, Slot.null] := rfl

/-- Claim C2 (fails on the code).  No empty element should ever be emitted.
For `"(ab  cd)"` the second separator closes an element of length 0, which
passes the test `strlen(start_ptr) != 1 && !isspace(*start_ptr)` and is stored;
for `"()"` the closing parenthesis stores the empty element without any test. -/
theorem split_emits_empty_elements (before : Char) :
    sh_split_array before "(ab  cd)".toList
        = .ok (elements ["ab".toList, [], "cd".toList])
      ∧ sh_split_array before "()".toList = .ok (elements [[]]) :=
  ⟨rfl, rfl⟩

/-- Claim C3.  With `name` a non-empty run of `[A-Za-z0-9_]` bound to the string
`v`, a prefix `p` free of `$`, single quote and backslash, a suffix `t` free of
`$`, and `p ++ v ++ t` not starting with a quote character,
`parse_word(table, p ++ "$" ++ "{" ++ name ++ "}" ++ t) = p ++ v ++ t`, and
`parse_word(table, p ++ "$" ++ name ++ t) = p ++ v ++ t` when `t` is empty or
starts with a character outside `[A-Za-z0-9_]`.  Nothing is assumed about the
content of `v`: it is inserted as it is. -/
theorem parse_word_scalar_reference {T : Type}
    (table_lookupr : Option T → Str → Option Symbol) (fresh : Char) (table : T)
    (p name v t : Str)
    (hname : name ≠ [] ∧ ∀ c ∈ name, isIdent c = true)
    (hlook : table_lookupr (some table) name = some (Symbol.string v))
    (hp : ∀ c ∈ p, c ≠ '$' ∧ c ≠ '\'' ∧ c ≠ '\\' ∧ c ≠ '\x00')
    (ht : '$' ∉ t ∧ '\x00' ∉ t) (hv : '\x00' ∉ v)
    (hq : (p ++ v ++ t).head? ≠ some '\'' ∧ (p ++ v ++ t).head? ≠ some '"') :
    sh_parse_word table_lookupr fresh (some table) (p ++ '$' :: '{' :: (name ++ '}' :: t))
        = .ok (some (p ++ v ++ t))
      ∧ ((t = [] ∨ ∃ d r, t = d :: r ∧ isIdent d = false) →
          sh_parse_word table_lookupr fresh (some table) (p ++ '$' :: (name ++ t))
            = .ok (some (p ++ v ++ t))) := by
  have hnul : '\x00' ∉ p ++ v ++ t := by
    intro m
    rcases List.mem_append.mp m with m | m
    · rcases List.mem_append.mp m with m | m
      · exact (hp _ m).2.2.2 rfl
      · exact hv m
    · exact ht.2 m
  refine ⟨?_, fun ht1 => ?_⟩
  · unfold sh_parse_word
    rw [subst_braced table_lookupr fresh (some table) p name v t hp hname.2 hv ht hlook]
    exact sh_unquote_plain _ hnul hq
  · unfold sh_parse_word
    rw [subst_bare table_lookupr fresh (some table) p name v t hp hname.1 hname.2 hv ht ht1
      hlook]
    exact sh_unquote_plain _ hnul hq

/-- Witness for C3: with `a` bound to `$b` and `b` bound to `x`, both forms of
the reference to `a` between `v=` and `/z` give `v=$b/z`. -/
theorem parse_word_scalar_reference_witness :
    sh_parse_word assocLookup 'A'
        (some [("a".toList, Symbol.string "$b".toList), ("b".toList, Symbol.string "x".toList)])
        "v=$\x7ba\x7d/z".toList = .ok (some "v=$b/z".toList)
      ∧ sh_parse_word assocLookup 'A'
        (some [("a".toList, Symbol.string "$b".toList), ("b".toList, Symbol.string "x".toList)])
        "v=$a/z".toList = .ok (some "v=$b/z".toList) :=
  have h := parse_word_scalar_reference assocLookup 'A'
    [("a".toList, Symbol.string "$b".toList), ("b".toList, Symbol.string "x".toList)]
    "v=".toList "a".toList "$b".toList "/z".toList
    (by decide) rfl (by decide) (by decide) (by decide) (by decide)
  ⟨h.1, h.2 (Or.inr ⟨'/', "z".toList, rfl, by decide⟩)⟩

/-- Claim C4 (fails on the code).  `parse_word(table, "a $missing b")` should be
`"a  b"`.  In `_substitute_words` the text in front of a reference is appended
inside `if(symbol != NULL)`, so for an unbound name it is dropped together with
the reference: the result is `" b"`. -/
theorem parse_word_unbound_drops_prefix (fresh : Char) :
    sh_parse_word assocLookup fresh (some []) "a $missing b".toList
      = .ok (some " b".toList) := rfl

/-- Claim C5.  For a string of length at least 2 whose first character is `'`
or `"`, `sh_unquote` returns the string without its first and its last
character; for a string whose first character is neither (the empty string
included) it returns an equal string. -/
theorem sh_unquote_strips_ends (s : Str) (hnul : '\x00' ∉ s) :
    ((2 ≤ s.length ∧ (s.head? = some '\'' ∨ s.head? = some '"')) →
        sh_unquote (some s) = .ok (some s.tail.dropLast))
      ∧ ((s.head? ≠ some '\'' ∧ s.head? ≠ some '"') →
        sh_unquote (some s) = .ok (some s)) :=
  ⟨fun h => sh_unquote_quoted s hnul h.1 h.2, fun h => sh_unquote_plain s hnul h⟩

/-- Witness for C5: `"hello"` in double quotes, `'a"b\c"` with an unmatched
last character, `plain` and the empty string. -/
theorem sh_unquote_strips_ends_witness :
    sh_unquote (some ['"', 'h', 'e', 'l', 'l', 'o', '"']) = .ok (some "hello".toList)
      ∧ sh_unquote (some ['\'', 'a', '"', 'b', '\\', 'c', '"'])
          = .ok (some ['a', '"', 'b', '\\', 'c'])
      ∧ sh_unquote (some "plain".toList) = .ok (some "plain".toList)
      ∧ sh_unquote (some []) = .ok (some []) :=
  ⟨(sh_unquote_strips_ends _ (by decide)).1 ⟨by decide, Or.inr rfl⟩,
   (sh_unquote_strips_ends _ (by decide)).1 ⟨by decide, Or.inl rfl⟩,
   (sh_unquote_strips_ends _ (by decide)).2 (by decide),
   (sh_unquote_strips_ends _ (by decide)).2 (by decide)⟩

/-- Claim C6.  For a string without `$` that does not start with a quote
character, and for any table, present or absent, `parse_word(table, s) = s`. -/
theorem parse_word_identity {T : Type} (table_lookupr : Option T → Str → Option Symbol)
    (fresh : Char) (table : Option T) (s : Str)
    (hnul : '\x00' ∉ s) (hsigil : '$' ∉ s)
    (hq : s.head? ≠ some '\'' ∧ s.head? ≠ some '"') :
    sh_parse_word table_lookupr fresh table s = .ok (some s) :=
  parse_word_plain table_lookupr fresh table s hnul hsigil hq

/-- Witness for C6: a word with an inner quote, a backslash and braces, with a
table that binds `b` and with no table. -/
theorem parse_word_identity_witness :
    sh_parse_word assocLookup 'A' (some [("b".toList, Symbol.string "x".toList)])
        ['a', '\'', 'b', ' ', '\\', '{', 'b', '}'] = .ok (some ['a', '\'', 'b', ' ', '\\', '{', 'b', '}'])
      ∧ sh_parse_word assocLookup 'A' none
        ['a', '\'', 'b', ' ', '\\', '{', 'b', '}'] = .ok (some ['a', '\'', 'b', ' ', '\\', '{', 'b', '}']) :=
  ⟨parse_word_identity assocLookup 'A' _ _ (by decide) (by decide) (by decide),
   parse_word_identity assocLookup 'A' _ _ (by decide) (by decide) (by decide)⟩

/-- Claim C7 (fails on the code).  `parse_word(table, "$arr")` with `arr` bound
to the array `x`, `y`, `z` should be `"x y z"`.  `_array_cat` appends with
`strncat` to a block it has not initialised at offset 0.  When `malloc` hands
out a block that starts with a NUL byte the result is `"x y z"`; when the block
starts with any other byte the elements are appended behind the bytes found
there and the copy runs out of the block. -/
theorem parse_word_array_needs_zeroed_block :
    sh_parse_word assocLookup 'A'
        (some [("arr".toList, Symbol.array ["x".toList, "y".toList, "z".toList])])
        "$arr".toList = .error Fault.heapOverflow
      ∧ sh_parse_word assocLookup '\x00'
        (some [("arr".toList, Symbol.array ["x".toList, "y".toList, "z".toList])])
        "$arr".toList = .ok (some "x y z".toList) :=
  ⟨rfl, rfl⟩

/-- Claim C8 (fails on the code).  `parse_array(absent, "('ab' cd)")` should be
`ab` and `cd`: every element passed through `parse_word`, hence unquoted, as
the header says of the strings of the returned array.  `sh_parse_array` runs
its loop over the elements only under `result != NULL && table != NULL`: with
no table the elements come back as the tokenizer cut them, `'ab'` with its
quotes, while with a table, even one that binds nothing, the same literal
gives `ab` and `cd`. -/
theorem parse_array_absent_table_raw :
    sh_parse_array assocLookup 'A' 'A' none "('ab' cd)".toList
        = .ok (elements ["'ab'".toList, "cd".toList])
      ∧ sh_parse_array assocLookup 'A' 'A' (some []) "('ab' cd)".toList
        = .ok (elements ["ab".toList, "cd".toList])
      ∧ sh_parse_word assocLookup 'A' none "'ab'".toList = .ok (some "ab".toList)
      ∧ sh_parse_array assocLookup 'A' 'A' none "('ab' cd)".toList
        ≠ .ok (elements ["ab".toList, "cd".toList]) :=
  ⟨rfl, rfl, rfl, by decide⟩

/-- Counterexample to C9: with `q` bound to `'x'` (quotes included),
`parse_word(table, "$q")` is `x` and not the value `'x'`. -/
theorem parse_word_value_quotes_stripped :
    sh_parse_word assocLookup 'A' (some [("q".toList, Symbol.string "'x'".toList)])
        "$q".toList = .ok (some "x".toList)
      ∧ sh_parse_word assocLookup 'A' (some [("q".toList, Symbol.string "'x'".toList)])
        "$q".toList ≠ .ok (some "'x'".toList) :=
  ⟨rfl, by decide⟩

/-- Claim C9, amended.  With `name` bound to a string `v` of length at least 2
that starts with a quote character, `parse_word(table, "$" ++ name)` is `v`
without its first and its last character: `sh_unquote` runs on the text after
substitution and strips a quote that came from the value like one that was in
the word. -/
theorem parse_word_quoted_value {T : Type}
    (table_lookupr : Option T → Str → Option Symbol) (fresh : Char) (table : T)
    (name v : Str)
    (hname : name ≠ [] ∧ ∀ c ∈ name, isIdent c = true)
    (hlook : table_lookupr (some table) name = some (Symbol.string v))
    (hv : '\x00' ∉ v) (hlen : 2 ≤ v.length)
    (hq : v.head? = some '\'' ∨ v.head? = some '"') :
    sh_parse_word table_lookupr fresh (some table) ('$' :: name)
      = .ok (some v.tail.dropLast) := by
  have h := subst_bare table_lookupr fresh (some table) [] name v [] (by simp) hname.1
    hname.2 hv (by simp) (Or.inl rfl) hlook
  simp only [List.nil_append, List.append_nil] at h
  unfold sh_parse_word
  rw [h]
  exact sh_unquote_quoted v hv hlen hq

/-- Witness for C9: `q` bound to `"a b"` in double quotes. -/
theorem parse_word_quoted_value_witness :
    sh_parse_word assocLookup 'A'
        (some [("q".toList, Symbol.string ['"', 'a', ' ', 'b', '"'])]) "$q".toList
      = .ok (some "a b".toList) :=
  parse_word_quoted_value assocLookup 'A'
    [("q".toList, Symbol.string ['"', 'a', ' ', 'b', '"'])] "q".toList _
    (by decide) rfl (by decide) (by decide) (Or.inr rfl)

/-- Claim C10.  For a quote character `q`, a body without quote or backslash
characters (whitespace and parentheses allowed) and a non-empty word `w`
without space, tab, newline, quote, backslash or parenthesis characters,
`tokenize_array("(" ++ q ++ body ++ q ++ " " ++ w ++ ")")` is the two elements
`q ++ body ++ q` and `w`: every slot written, the quotes kept. -/
theorem split_quoted_element (before q : Char) (body w : Str)
    (hq : q = '\'' ∨ q = '"')
    (hbody : ∀ c ∈ body, c ≠ '\'' ∧ c ≠ '"' ∧ c ≠ '\\' ∧ c ≠ '\x00')
    (_hne : w ≠ [])
    (hw : ∀ c ∈ w, c ≠ ' ' ∧ c ≠ '\t' ∧ c ≠ '\n' ∧ c ≠ '\'' ∧ c ≠ '"' ∧ c ≠ '\\'
      ∧ c ≠ '(' ∧ c ≠ ')' ∧ c ≠ '\x00') :
    sh_split_array before ('(' :: q :: (body ++ q :: ' ' :: (w ++ [')'])))
      = .ok (elements [q :: (body ++ [q]), w]) :=
  split_quoted_pair before q body w hq hbody hw

/-- Witness for C10: the literal `('a (b)  c' d)`. -/
theorem split_quoted_element_witness :
    sh_split_array 'A' "('a (b)  c' d)".toList
      = .ok (elements ["'a (b)  c'".toList, "d".toList]) :=
  split_quoted_element 'A' '\'' "a (b)  c".toList "d".toList (Or.inl rfl) (by decide)
    (by decide) (by decide)

/-- Counterexample to C11: `(ab cd` without the closing parenthesis gives the
single element `ab`, `(ab cd)` gives `ab` and `cd`. -/
theorem split_unterminated_loses_last :
    sh_split_array 'A' "(ab cd".toList = .ok (elements ["ab".toList])
      ∧ sh_split_array 'A' "(ab cd)".toList = .ok (elements ["ab".toList, "cd".toList])
      ∧ sh_split_array 'A' "(ab cd".toList ≠ sh_split_array 'A' "(ab cd)".toList :=
  ⟨rfl, rfl, by decide⟩

/-- Claim C11, amended.  Let `L` begin with `(` and contain no quote, backslash
or `)`.  Whenever `tokenize_array(L ++ ")")` is a fully written block of
elements, `tokenize_array(L)` is that block without its last element: the end
of the string ends the array, and the text after the last separator is not
returned. -/
theorem split_unterminated_drops_last (before : Char) (body : Str) (ws : List Str) (w : Str)
    (hbody : ∀ c ∈ body, c ≠ '\'' ∧ c ≠ '"' ∧ c ≠ '\\' ∧ c ≠ ')' ∧ c ≠ '\x00')
    (hclosed : sh_split_array before ('(' :: (body ++ [')'])) = .ok (elements (ws ++ [w]))) :
    sh_split_array before ('(' :: body) = .ok (elements ws) :=
  split_open_drops_last before body ws w hbody hclosed

/-- Witness for C11: the literal `(abc de<TAB>fg hi`, closed and not closed. -/
theorem split_unterminated_drops_last_witness :
    sh_split_array 'A' "(abc de\tfg hi)".toList
        = .ok (elements ["abc".toList, "de".toList, "fg".toList, "hi".toList])
      ∧ sh_split_array 'A' "(abc de\tfg hi".toList
        = .ok (elements ["abc".toList, "de".toList, "fg".toList]) :=
  ⟨rfl, split_unterminated_drops_last 'A' "abc de\tfg hi".toList
    ["abc".toList, "de".toList, "fg".toList] "hi".toList (by decide) rfl⟩

/-- Claim C12 (fails on the code).  `sh_unquote` should return a string for
every present input.  For the one-character strings `'` and `"` the length
after the quote is 0, `len - 1` wraps around and `strncpy` is told to fill
`SIZE_MAX` bytes of a block of size 0.  The empty string is copied and an
absent input gives NULL, as claimed. -/
theorem sh_unquote_lone_quote_overflows :
    sh_unquote (some ['\'']) = .error Fault.heapOverflow
      ∧ sh_unquote (some ['"']) = .error Fault.heapOverflow
      ∧ sh_unquote (some []) = .ok (some [])
      ∧ sh_unquote none = .ok none :=
  ⟨rfl, rfl, rfl, rfl⟩

/-- Claim C13 (fails on the code).  A literal without the leading parenthesis
should give the same elements as with it.  `_array_size` skips the first byte
only when it is `(`, `sh_split_array` skips it always: `abc de)` gives `bc`
and `de`, `(abc de)` gives `abc` and `de`. -/
theorem split_without_paren_loses_first_byte (before : Char) :
    sh_split_array before "abc de)".toList = .ok (elements ["bc".toList, "de".toList])
      ∧ sh_split_array before "(abc de)".toList
        = .ok (elements ["abc".toList, "de".toList]) :=
  ⟨rfl, rfl⟩

/-- Claim C14 (fails on the code).  The header documents that `sh_unquote`
unescapes escaped quotes, `"foo \"bar\""` becoming `foo "bar"`.  The function
removes the first and the last byte and nothing else: the backslashes stay. -/
theorem sh_unquote_keeps_escapes :
    sh_unquote (some ['"', 'f', 'o', 'o', ' ', '\\', '"', 'b', 'a', 'r', '\\', '"', '"'])
      = .ok (some ['f', 'o', 'o', ' ', '\\', '"', 'b', 'a', 'r', '\\', '"']) := rfl

/-- Counterexample to C15: in `'a\'$foo'` the only `$` lies inside the region
as the claim reads it (the escaped `'` not toggling), and with `foo` bound to
`bar` the Word Substitutor returns `'a\'bar'`, not its input. -/
theorem substitute_after_escaped_quote :
    sigilsInLiteralUnescaped false false ['\'', 'a', '\\', '\'', '$', 'f', 'o', 'o', '\'']
        = true
      ∧ _substitute_words assocLookup 'A' (some [("foo".toList, Symbol.string "bar".toList)])
          ['\'', 'a', '\\', '\'', '$', 'f', 'o', 'o', '\'']
        = .ok ['\'', 'a', '\\', '\'', 'b', 'a', 'r', '\'']
      ∧ _substitute_words assocLookup 'A' (some [("foo".toList, Symbol.string "bar".toList)])
          ['\'', 'a', '\\', '\'', '$', 'f', 'o', 'o', '\'']
        ≠ .ok ['\'', 'a', '\\', '\'', '$', 'f', 'o', 'o', '\''] :=
  ⟨rfl, rfl, by decide⟩

/-- Claim C15, amended.  Let every `$` of `s` lie inside a literal-quoted
region, where a region is opened by an unescaped `'` and closed by the next
`'`, whether a backslash precedes that one or not, and let no brace directly
follow an escaping backslash.  Then the Word Substitutor returns `s`
unchanged, for every table. -/
theorem substitute_literal_region {T : Type}
    (table_lookupr : Option T → Str → Option Symbol) (fresh : Char) (table : Option T)
    (s : Str) (hnul : '\x00' ∉ s) (hregion : sigilsInLiteral false false s = true) :
    _substitute_words table_lookupr fresh table s = .ok s := by
  have hf : _find_next_substitution s = none := findLoop_literal_only s _ _ _ _ hregion
  simp only [_substitute_words, hf, cstr_of_no_nul s hnul]

/-- Witness for C15: a quoted region holding `$foo` and the braced form of it,
followed by ` b\'c`, with `foo` bound. -/
theorem substitute_literal_region_witness :
    _substitute_words assocLookup 'A' (some [("foo".toList, Symbol.string "bar".toList)])
        ['\'', 'a', ' ', '$', 'f', 'o', 'o', ' ', '$', '{', 'f', 'o', 'o', '}', '\'', ' ',
          'b', '\\', '\'', 'c']
      = .ok ['\'', 'a', ' ', '$', 'f', 'o', 'o', ' ', '$', '{', 'f', 'o', 'o', '}', '\'', ' ',
          'b', '\\', '\'', 'c'] :=
  substitute_literal_region assocLookup 'A' _ _ (by decide) (by decide)

/-- Counterexample to C16: in `$ foo` the scanner reports the reference from
offset 0 to offset 4, not in brace form, and the name cut out of it is ` foo`,
which starts with a space. -/
theorem scanner_name_with_space :
    _find_next_substitution "$ foo".toList = some (0, 4)
      ∧ _strcpy_partial "$ foo".toList 1 4 = " foo".toList
      ∧ ¬ (∀ c ∈ " foo".toList, isIdent c = true) :=
  ⟨rfl, rfl, by decide⟩

/-- Claim C16, amended.  Whenever the scanner reports a reference that does not
end in `}` (one found by lookahead, not by a closing brace), the name, from
the byte after the sigil to the end offset, is not empty, its last byte is none
of NUL, `'`, backslash, `$`, `{`, and the byte after it is outside
`[A-Za-z0-9_]` (the string may end there).  The other bytes of the name are
not examined. -/
theorem scanner_bare_reference (s : Str) (start end_ : Nat)
    (hfound : _find_next_substitution s = some (start, end_))
    (hbare : s.getD end_ '\x00' ≠ '}') :
    start < end_ ∧ end_ < s.length
      ∧ (s.getD end_ '\x00' ≠ '\x00' ∧ s.getD end_ '\x00' ≠ '\''
          ∧ s.getD end_ '\x00' ≠ '\\' ∧ s.getD end_ '\x00' ≠ '$'
          ∧ s.getD end_ '\x00' ≠ '{')
      ∧ isIdent (s.getD (end_ + 1) '\x00') = false := by
  obtain ⟨h1, h2, _, h4⟩ := find_sound s start end_ hfound
  rcases h4 with h4 | h4
  · exact absurd h4 hbare
  · exact ⟨h1, h2, h4.1, h4.2⟩

/-- Witness for C16: `foo$bar baz`, the example of the source: the reference
runs from the sigil at offset 3 to the `r` at offset 6. -/
theorem scanner_bare_reference_witness :
    _find_next_substitution "foo$bar baz".toList = some (3, 6)
      ∧ (3 < 6 ∧ 6 < "foo$bar baz".toList.length
        ∧ ("foo$bar baz".toList.getD 6 '\x00' ≠ '\x00'
            ∧ "foo$bar baz".toList.getD 6 '\x00' ≠ '\''
            ∧ "foo$bar baz".toList.getD 6 '\x00' ≠ '\\'
            ∧ "foo$bar baz".toList.getD 6 '\x00' ≠ '$'
            ∧ "foo$bar baz".toList.getD 6 '\x00' ≠ '{')
        ∧ isIdent ("foo$bar baz".toList.getD (6 + 1) '\x00') = false) :=
  ⟨rfl, scanner_bare_reference "foo$bar baz".toList 3 6 rfl (by decide)⟩

/-- Claim C17 (fails on the code).  A quote of the other kind inside a quoted
element should be inert.  Both loops assign `quote_char = *str_ptr` at every
unescaped quote, also at one that does not match, so in `('a"b' c)` the closing
`'` no longer matches and the rest of the literal stays quoted: `_array_size`
counts 0 and no element is returned. -/
theorem split_mismatched_quote_swallows_array (before : Char) :
    _array_size before ['(', '\'', 'a', '"', 'b', '\'', ' ', 'c', ')'] = 0
      ∧ sh_split_array before ['(', '\'', 'a', '"', 'b', '\'', ' ', 'c', ')']
        = .ok (elements []) :=
  ⟨rfl, rfl⟩

/-- Claim C18.  For an identifier `name`, bound or not, a prefix `p` and a suffix
`t` without `$`, single quote and backslash, `p` not starting with a quote
character, and any table: `parse_word(table, p ++ "\$" ++ name ++ t)` is its
input, the backslash included. -/
theorem parse_word_escaped_sigil {T : Type}
    (table_lookupr : Option T → Str → Option Symbol) (fresh : Char) (table : Option T)
    (p name t : Str)
    (hname : name ≠ [] ∧ ∀ c ∈ name, isIdent c = true)
    (hp : ∀ c ∈ p, c ≠ '$' ∧ c ≠ '\'' ∧ c ≠ '\\' ∧ c ≠ '\x00')
    (ht : ∀ c ∈ t, c ≠ '$' ∧ c ≠ '\'' ∧ c ≠ '\\' ∧ c ≠ '\x00')
    (hq : p.head? ≠ some '\'' ∧ p.head? ≠ some '"') :
    sh_parse_word table_lookupr fresh table (p ++ '\\' :: '$' :: (name ++ t))
      = .ok (some (p ++ '\\' :: '$' :: (name ++ t))) := by
  have hf := find_escaped_sigil p name t hp hname.2 (fun m => (ht _ m).1 rfl)
  have hnul : '\x00' ∉ p ++ '\\' :: '$' :: (name ++ t) := by
    intro m
    rcases List.mem_append.mp m with m | m
    · exact (hp _ m).2.2.2 rfl
    · rcases List.mem_cons.mp m with m | m
      · exact absurd m (by decide)
      · rcases List.mem_cons.mp m with m | m
        · exact absurd m (by decide)
        · rcases List.mem_append.mp m with m | m
          · exact ident_no_nul name hname.2 m
          · exact (ht _ m).2.2.2 rfl
  have hq2 : (p ++ '\\' :: '$' :: (name ++ t)).head? ≠ some '\''
      ∧ (p ++ '\\' :: '$' :: (name ++ t)).head? ≠ some '"' := by
    cases p with
    | nil => simp
    | cons c p => simpa using hq
  simp only [sh_parse_word, _substitute_words, hf, cstr_of_no_nul _ hnul]
  exact sh_unquote_plain _ hnul hq2

/-- Witness for C18: `a"=\$foo."c` with `foo` bound to `bar`. -/
theorem parse_word_escaped_sigil_witness :
    sh_parse_word assocLookup 'A' (some [("foo".toList, Symbol.string "bar".toList)])
        ['a', '"', '=', '\\', '$', 'f', 'o', 'o', '.', '"', 'c']
      = .ok (some ['a', '"', '=', '\\', '$', 'f', 'o', 'o', '.', '"', 'c']) :=
  parse_word_escaped_sigil assocLookup 'A' _ ['a', '"', '='] "foo".toList ['.', '"', 'c']
    (by decide) (by decide) (by decide) (by decide)

/-- Claim C19.  Whenever the scanner reports `(start, end)` in `s`, the byte at
`start` is `$` and `start < end < length s`, so what is left behind
`end + 1` is shorter than `s`.  The loop of the Word Substitutor therefore
ends on every input: the run never uses up its budget of rounds, and any
larger budget gives the same result. -/
theorem scanner_offsets_and_termination {T : Type}
    (table_lookupr : Option T → Str → Option Symbol) (fresh : Char) (table : Option T)
    (s : Str) :
    (∀ start end_, _find_next_substitution s = some (start, end_) →
        s.getD start '\x00' = '$' ∧ start < end_ ∧ end_ < s.length
          ∧ (s.drop (end_ + 1)).length < s.length)
      ∧ _substitute_words table_lookupr fresh table s ≠ .error Fault.fuel
      ∧ (∀ n result, s.length < n →
          substLoop table_lookupr fresh table n result s ≠ .error Fault.fuel
            ∧ substLoop table_lookupr fresh table n result s
              = substLoop table_lookupr fresh table (s.length + 1) result s) := by
  refine ⟨fun start end_ h => ?_, _substitute_words_budget table_lookupr fresh table s,
    fun n result hn => ⟨substLoop_budget table_lookupr fresh table n result s hn,
      substLoop_budget_irrelevant table_lookupr fresh table n _ result s hn
        (Nat.lt_succ_self _)⟩⟩
  obtain ⟨h1, h2, h3, _⟩ := find_sound s start end_ h
  refine ⟨h3, h1, h2, ?_⟩
  rw [List.length_drop]
  omega

/-- Witness for C19: `foo$bar baz`, the example of the source, where the scanner
reports the offsets 3 and 6. -/
theorem scanner_offsets_and_termination_witness :
    "foo$bar baz".toList.getD 3 '\x00' = '$' ∧ 3 < 6 ∧ 6 < "foo$bar baz".toList.length
      ∧ ("foo$bar baz".toList.drop (6 + 1)).length < "foo$bar baz".toList.length :=
  (scanner_offsets_and_termination assocLookup 'A' none "foo$bar baz".toList).1 3 6 rfl

/-- Claim C20.  For a first word and further words, each preceded by one
separator (space, tab or newline), every word of length at least 2 and free of
whitespace (`isspace`), quote, backslash and parenthesis characters:
`_array_size` counts the words, and `sh_split_array` applied to `(`, the words
with their separators, `)` returns exactly the words, every slot in front of
the terminator written. -/
theorem split_words (before : Char) (w : Str) (rest : List (Char × Str))
    (hlen : 2 ≤ w.length)
    (hw : ∀ c ∈ w, isspace c = false ∧ c ≠ '\'' ∧ c ≠ '"' ∧ c ≠ '\\' ∧ c ≠ '(' ∧ c ≠ ')'
      ∧ c ≠ '\x00')
    (hrest : ∀ p ∈ rest, (p.1 = ' ' ∨ p.1 = '\t' ∨ p.1 = '\n') ∧ 2 ≤ p.2.length
      ∧ ∀ c ∈ p.2, isspace c = false ∧ c ≠ '\'' ∧ c ≠ '"' ∧ c ≠ '\\' ∧ c ≠ '(' ∧ c ≠ ')'
        ∧ c ≠ '\x00') :
    _array_size before ('(' :: (w ++ (joinSep rest ++ [')'])))
        = (w :: rest.map Prod.snd).length
      ∧ sh_split_array before ('(' :: (w ++ (joinSep rest ++ [')'])))
        = .ok (elements (w :: rest.map Prod.snd)) :=
  split_words_all before w rest hlen hw hrest

/-- Witness for C20: `(foo bar\tqux\nzz)`. -/
theorem split_words_witness :
    _array_size 'A' "(foo bar\tqux\nzz)".toList = 4
      ∧ sh_split_array 'A' "(foo bar\tqux\nzz)".toList
        = .ok (elements ["foo".toList, "bar".toList, "qux".toList, "zz".toList]) :=
  split_words 'A' "foo".toList [(' ', "bar".toList), ('\t', "qux".toList), ('\n', "zz".toList)]
    (by decide) (by decide) (by decide)

end Pkgparse
